import Mathlib

set_option maxRecDepth 4000

/- Verification development for the BearShare collaborative editor.

   The RGA CRDT is embedded from crates/rga/src/{s4vector,node,remote_op,rga}.rs,
   the secure-channel record layer from crates/client/src/secure_channel.rs.

   Modelling conventions:
   - The u32 fields of S4Vector and the u32 vector-clock entries are modelled
     as Nat.  Rust debug builds abort on u32 overflow, so the Nat semantics
     agrees with the source on every run that does not abort; overflow needs
     more than 2 ^ 32 operations in one room lifetime and is treated as
     unreachable, as the spec does for the analogous u64 counters.
   - The u64 record sequence number and the u32 record length field of the
     secure channel are serialized through an explicit big-endian byte
     encoding (toBE), which truncates modulo 2 ^ 64 / 2 ^ 32 exactly as the
     source casts do, and the checked_add overflow tests of the source are
     kept as explicit range checks.
   - The linked list of Rc-shared nodes is modelled as a plain list of nodes
     in document order; the SVI hash map is modelled by first-match key
     lookup in that list.  The two agree whenever node keys are distinct
     within a replica, which is the k_id uniqueness invariant of the spec.
   - Fallible operations return Option or Except; functions that mutate
     through a mutable reference return the new state explicitly. -/

/-! ## S4Vector (crates/rga/src/s4vector.rs) -/

structure S4Vector where
  ssn : Nat
  sid : Nat
  sum : Nat
  seq : Nat
deriving DecidableEq

def S4Vector.precedes (a b : S4Vector) : Bool :=
  if a.ssn ≠ b.ssn then decide (a.ssn < b.ssn)
  else if a.sum ≠ b.sum then decide (a.sum < b.sum)
  else decide (a.sid < b.sid)

/-! ## Node (crates/rga/src/node.rs) -/

structure Node (T : Type) where
  obj : Option T
  s_k : S4Vector
  s_p : S4Vector
deriving DecidableEq

def Node.mk' {T : Type} (obj : T) (s4v : S4Vector) : Node T :=
  ⟨some obj, s4v, s4v⟩

def Node.is_tombstone {T : Type} (n : Node T) : Bool :=
  n.obj.isNone

/-! ## RemoteOp (crates/rga/src/remote_op.rs) -/

inductive RemoteOp (T : Type) where
  | insert (left_id : Option S4Vector) (value : T) (s4v : S4Vector) (vector_clock : List Nat)
  | delete (target_id : S4Vector) (s4v : S4Vector) (vector_clock : List Nat)
  | update (target_id : S4Vector) (value : T) (s4v : S4Vector) (vector_clock : List Nat)
deriving DecidableEq

def RemoteOp.vc {T : Type} : RemoteOp T → List Nat
  | .insert _ _ _ v => v
  | .delete _ _ v => v
  | .update _ _ _ v => v

/-! ## Rga (crates/rga/src/rga.rs) -/

structure Rga (T : Type) where
  nodes : List (Node T)
  site_id : Nat
  session : Nat
  vector_clock : List Nat
  cemetery : List S4Vector
deriving DecidableEq

def Rga.new (T : Type) (site_id : Nat) (num_sites : Nat) : Rga T :=
  ⟨[], site_id, 1, List.replicate num_sites 0, []⟩

def Rga.generate_s4vector {T : Type} (r : Rga T) : S4Vector × Rga T :=
  let vc := r.vector_clock.set r.site_id (r.vector_clock.getD r.site_id 0 + 1)
  (⟨r.session, r.site_id, vc.sum, vc.getD r.site_id 0⟩, { r with vector_clock := vc })

/-- find_by_index walks the list skipping tombstones; the model returns the
found node together with its list context (the source returns a shared
reference to the node, which the caller then mutates in place). -/
def find_by_index {T : Type} : List (Node T) → Nat → Option (List (Node T) × Node T × List (Node T))
  | [], _ => none
  | n :: ns, i =>
    if n.obj.isSome then
      if i = 0 then some ([], n, ns)
      else (find_by_index ns (i - 1)).map (fun x => (n :: x.1, x.2.1, x.2.2))
    else (find_by_index ns i).map (fun x => (n :: x.1, x.2.1, x.2.2))

/-- find_by_s4vector: the SVI hash-map lookup, modelled as first-match search
on the creation key. -/
def find_by_s4vector {T : Type} : List (Node T) → S4Vector → Option (Node T)
  | [], _ => none
  | n :: ns, k => if n.s_k = k then some n else find_by_s4vector ns k

/-- Context-returning variant of the hash-map lookup, used where the source
re-links the list around the found node. -/
def splitAtKey {T : Type} : List (Node T) → S4Vector → Option (List (Node T) × Node T × List (Node T))
  | [], _ => none
  | n :: ns, k =>
    if n.s_k = k then some ([], n, ns)
    else (splitAtKey ns k).map (fun x => (n :: x.1, x.2.1, x.2.2))

/-- In-place mutation of the node found by the hash map, modelled as mapping
the first node carrying the key. -/
def applyAtKey {T : Type} (k : S4Vector) (f : Node T → Node T) : List (Node T) → List (Node T)
  | [] => []
  | n :: ns => if n.s_k = k then f n :: ns else n :: applyAtKey k f ns

/-- Remote Insert (Algorithm 8).  After locating the left cobject the scan
advances while the inserted key precedes the key of the next node, then the
new node is linked in; with no left cobject the head cases of lines 14-22
apply. -/
def Rga.remote_insert {T : Type} (r : Rga T) (left_id : Option S4Vector) (value : T)
    (s4v : S4Vector) : Rga T :=
  let newNode : Node T := ⟨some value, s4v, s4v⟩
  match left_id with
  | some l =>
    match splitAtKey r.nodes l with
    | none => r
    | some (pre, ln, suf) =>
      { r with nodes := pre ++ ln ::
          (suf.takeWhile (fun n => s4v.precedes n.s_k) ++
            newNode :: suf.dropWhile (fun n => s4v.precedes n.s_k)) }
  | none =>
    match r.nodes with
    | [] => { r with nodes := [newNode] }
    | h :: t =>
      if h.s_k.precedes s4v then { r with nodes := newNode :: h :: t }
      else
        { r with nodes := h ::
            (t.takeWhile (fun n => s4v.precedes n.s_k) ++
              newNode :: t.dropWhile (fun n => s4v.precedes n.s_k)) }

/-- Remote Delete (Algorithm 9): unconditionally tombstones the target and
overwrites its precedence id; enrolls the target in the cemetery when it was
not already a tombstone. -/
def Rga.remote_delete {T : Type} (r : Rga T) (target_id : S4Vector) (s4v : S4Vector) : Rga T :=
  match find_by_s4vector r.nodes target_id with
  | none => r
  | some n =>
    { r with
      nodes := applyAtKey target_id (fun m => { m with obj := none, s_p := s4v }) r.nodes,
      cemetery := if n.is_tombstone then r.cemetery else r.cemetery ++ [target_id] }

/-- Remote Update (Algorithm 10): drops on tombstones, otherwise applies only
when the new id succeeds the current precedence id. -/
def Rga.remote_update {T : Type} (r : Rga T) (target_id : S4Vector) (value : T)
    (s4v : S4Vector) : Rga T :=
  match find_by_s4vector r.nodes target_id with
  | none => r
  | some n =>
    if n.is_tombstone then r
    else if n.s_p.precedes s4v then
      { r with nodes :=
          applyAtKey target_id (fun m => { m with obj := some value, s_p := s4v }) r.nodes }
    else r

def Rga.insert_local {T : Type} (r : Rga T) (index : Nat) (value : T) :
    Option (RemoteOp T) × Rga T :=
  let p := r.generate_s4vector
  let left_id := if index = 0 then none
    else (find_by_index p.2.nodes (index - 1)).map (fun x => x.2.1.s_k)
  let r2 := p.2.remote_insert left_id value p.1
  (some (.insert left_id value p.1 r2.vector_clock), r2)

def Rga.delete_local {T : Type} (r : Rga T) (index : Nat) :
    Option (RemoteOp T) × Rga T :=
  match find_by_index r.nodes index with
  | none => (none, r)
  | some (pre, n, suf) =>
    let p := r.generate_s4vector
    let r2 := { p.2 with
      nodes := pre ++ ({ n with obj := none, s_p := p.1 } :: suf),
      cemetery := p.2.cemetery ++ [n.s_k] }
    (some (.delete n.s_k p.1 r2.vector_clock), r2)

def Rga.update_local {T : Type} (r : Rga T) (index : Nat) (value : T) :
    Option (RemoteOp T) × Rga T :=
  match find_by_index r.nodes index with
  | none => (none, r)
  | some (pre, n, suf) =>
    let p := r.generate_s4vector
    let r2 := { p.2 with nodes := pre ++ ({ n with obj := some value, s_p := p.1 } :: suf) }
    (some (.update n.s_k value p.1 r2.vector_clock), r2)

def Rga.read {T : Type} (r : Rga T) : List T :=
  r.nodes.filterMap (·.obj)

/-- Vector-clock merge of apply_remote: positions present in both clocks take
the element-wise max, the receiver keeps its own trailing positions, trailing
positions of the operation clock are ignored. -/
def mergeVC : List Nat → List Nat → List Nat
  | [], _ => []
  | v, [] => v
  | a :: va, b :: vb => max a b :: mergeVC va vb

def Rga.apply_remote {T : Type} (r : Rga T) (op : RemoteOp T) : Rga T :=
  let r1 := { r with vector_clock := mergeVC r.vector_clock op.vc }
  match op with
  | .insert l v s _ => r1.remote_insert l v s
  | .delete t s _ => r1.remote_delete t s
  | .update t v s _ => r1.remote_update t v s

/-! ## C3: S4Vector totality -/

/-- C3 counterexample: two distinct S4Vectors that differ only in seq are
incomparable under precedes, refuting totality over every pair a ≠ b. -/
theorem c3_seq_only_pairs_incomparable :
    (⟨1, 0, 1, 1⟩ : S4Vector) ≠ (⟨1, 0, 1, 2⟩ : S4Vector) ∧
    (S4Vector.precedes ⟨1, 0, 1, 1⟩ ⟨1, 0, 1, 2⟩) = false ∧
    (S4Vector.precedes ⟨1, 0, 1, 2⟩ ⟨1, 0, 1, 1⟩) = false := by
  refine ⟨by decide, by decide, by decide⟩

/-- Arithmetic normal form of the precedes test: strict lexicographic order on
the triple (ssn, sum, sid). -/
theorem S4Vector.precedes_iff (a b : S4Vector) :
    a.precedes b = true ↔
      (a.ssn < b.ssn ∨ (a.ssn = b.ssn ∧
        (a.sum < b.sum ∨ (a.sum = b.sum ∧ a.sid < b.sid)))) := by
  unfold S4Vector.precedes
  split_ifs with h1 h2 <;> simp <;> omega

/-- C3 (amended): for every pair of S4Vectors that differ in ssn, sum, or sid,
exactly one of a ≺ b, b ≺ a holds; ≺ is transitive and antisymmetric on all
S4Vectors.  Pairs that differ only in seq are incomparable. -/
theorem c3_precedes_total_transitive (a b : S4Vector)
    (h : a.ssn ≠ b.ssn ∨ a.sum ≠ b.sum ∨ a.sid ≠ b.sid) :
    ((a.precedes b = true ∧ b.precedes a = false) ∨
      (b.precedes a = true ∧ a.precedes b = false)) ∧
    (∀ c d e : S4Vector, c.precedes d = true → d.precedes e = true → c.precedes e = true) ∧
    (∀ c d : S4Vector, c.precedes d = true → d.precedes c = false) := by
  refine ⟨?_, ?_, ?_⟩
  · simp only [Bool.eq_false_iff, ne_eq, S4Vector.precedes_iff]
    rcases h with h | h | h <;> omega
  · intro c d e hcd hde
    rw [S4Vector.precedes_iff] at hcd hde ⊢
    omega
  · intro c d hcd
    rw [S4Vector.precedes_iff] at hcd
    simp only [Bool.eq_false_iff, ne_eq, S4Vector.precedes_iff]
    omega

/-- C3 witness: the amended totality theorem applied to a concrete pair
sharing ssn and sum but with distinct sid. -/
theorem c3_precedes_total_transitive_witness :
    ((⟨1, 0, 3, 3⟩ : S4Vector).ssn ≠ (⟨1, 1, 3, 1⟩ : S4Vector).ssn ∨
      (⟨1, 0, 3, 3⟩ : S4Vector).sum ≠ (⟨1, 1, 3, 1⟩ : S4Vector).sum ∨
      (⟨1, 0, 3, 3⟩ : S4Vector).sid ≠ (⟨1, 1, 3, 1⟩ : S4Vector).sid) ∧
    (((S4Vector.precedes ⟨1, 0, 3, 3⟩ ⟨1, 1, 3, 1⟩ = true ∧
        S4Vector.precedes ⟨1, 1, 3, 1⟩ ⟨1, 0, 3, 3⟩ = false) ∨
      (S4Vector.precedes ⟨1, 1, 3, 1⟩ ⟨1, 0, 3, 3⟩ = true ∧
        S4Vector.precedes ⟨1, 0, 3, 3⟩ ⟨1, 1, 3, 1⟩ = false)) ∧
    (∀ c d e : S4Vector, c.precedes d = true → d.precedes e = true → c.precedes e = true) ∧
    (∀ c d : S4Vector, c.precedes d = true → d.precedes c = false)) :=
  ⟨by decide, c3_precedes_total_transitive ⟨1, 0, 3, 3⟩ ⟨1, 1, 3, 1⟩ (by decide)⟩

/-! ## C1: dOPT puzzle convergence

Values stand for characters: 97 = a, 98 = b, 49 = 1, 50 = 2, 51 = 3. -/

def dOptOpA : RemoteOp Nat := .insert none 97 ⟨1, 0, 1, 1⟩ [1, 0, 0]

def dOptOpB : RemoteOp Nat := .insert (some ⟨1, 0, 1, 1⟩) 98 ⟨1, 0, 2, 2⟩ [2, 0, 0]

def dOptOp1 : RemoteOp Nat := .insert (some ⟨1, 0, 1, 1⟩) 49 ⟨1, 0, 3, 3⟩ [3, 0, 0]

def dOptOp2 : RemoteOp Nat := .insert (some ⟨1, 0, 1, 1⟩) 50 ⟨1, 1, 3, 1⟩ [2, 1, 0]

def dOptOp3 : RemoteOp Nat := .insert (some ⟨1, 0, 1, 1⟩) 51 ⟨1, 2, 3, 1⟩ [2, 0, 1]

/-- Site 0 after building the initial document ab. -/
def dOptS0ab : Rga Nat := (((Rga.new Nat 0 3).insert_local 0 97).2.insert_local 1 98).2

/-- Sites 1 and 2 after receiving the two initial inserts. -/
def dOptS1ab : Rga Nat := ((Rga.new Nat 1 3).apply_remote dOptOpA).apply_remote dOptOpB

def dOptS2ab : Rga Nat := ((Rga.new Nat 2 3).apply_remote dOptOpA).apply_remote dOptOpB

/-- Each site after issuing its own concurrent insert at visible index 1. -/
def dOptS0 : Rga Nat := (dOptS0ab.insert_local 1 49).2

def dOptS1 : Rga Nat := (dOptS1ab.insert_local 1 50).2

def dOptS2 : Rga Nat := (dOptS2ab.insert_local 1 51).2

/-- C1: in the dOPT puzzle the three broadcast inserts are the stated
operations, and applying the two foreign inserts at each site in either
order yields the visible sequence a321b at all three sites, hence all three
reads are identical. -/
theorem c1_dopt_puzzle_convergence :
    ((Rga.new Nat 0 3).insert_local 0 97).1 = some dOptOpA ∧
    (((Rga.new Nat 0 3).insert_local 0 97).2.insert_local 1 98).1 = some dOptOpB ∧
    (dOptS0ab.insert_local 1 49).1 = some dOptOp1 ∧
    (dOptS1ab.insert_local 1 50).1 = some dOptOp2 ∧
    (dOptS2ab.insert_local 1 51).1 = some dOptOp3 ∧
    ((dOptS0.apply_remote dOptOp2).apply_remote dOptOp3).read = [97, 51, 50, 49, 98] ∧
    ((dOptS0.apply_remote dOptOp3).apply_remote dOptOp2).read = [97, 51, 50, 49, 98] ∧
    ((dOptS1.apply_remote dOptOp1).apply_remote dOptOp3).read = [97, 51, 50, 49, 98] ∧
    ((dOptS1.apply_remote dOptOp3).apply_remote dOptOp1).read = [97, 51, 50, 49, 98] ∧
    ((dOptS2.apply_remote dOptOp1).apply_remote dOptOp2).read = [97, 51, 50, 49, 98] ∧
    ((dOptS2.apply_remote dOptOp2).apply_remote dOptOp1).read = [97, 51, 50, 49, 98] := by
  decide

/-! ## C2: delete wins and no resurrection

Values: 97 = a, 120 = x. -/

def duS0 : Rga Nat := ((Rga.new Nat 0 2).insert_local 0 97).2

def duOpIns : RemoteOp Nat := .insert none 97 ⟨1, 0, 1, 1⟩ [1, 0]

def duS1 : Rga Nat := (Rga.new Nat 1 2).apply_remote duOpIns

def duOpDel : RemoteOp Nat := .delete ⟨1, 0, 1, 1⟩ ⟨1, 0, 2, 2⟩ [2, 0]

def duOpUpd : RemoteOp Nat := .update ⟨1, 0, 1, 1⟩ 120 ⟨1, 1, 2, 1⟩ [1, 1]

/-- C2: a remote Update targeting a tombstoned node leaves the replica nodes
untouched, whatever the update precedence id is; and in the concurrent
delete/update race both sites converge to the empty document whichever way
the two operations cross. -/
theorem c2_delete_wins_no_resurrection (r : Rga Nat) (t : S4Vector) (v : Nat)
    (p : S4Vector) (vc : List Nat) (n : Node Nat)
    (hfind : find_by_s4vector r.nodes t = some n) (htomb : n.obj = none) :
    (r.apply_remote (.update t v p vc)).nodes = r.nodes ∧
    (duS0.delete_local 0).1 = some duOpDel ∧
    (duS1.update_local 0 120).1 = some duOpUpd ∧
    ((duS0.delete_local 0).2.apply_remote duOpUpd).read = [] ∧
    ((duS1.update_local 0 120).2.apply_remote duOpDel).read = [] := by
  refine ⟨?_, by decide, by decide, by decide, by decide⟩
  show (Rga.remote_update _ t v p).nodes = r.nodes
  unfold Rga.remote_update
  simp only [show ({ r with vector_clock := mergeVC r.vector_clock vc } : Rga Nat).nodes
      = r.nodes from rfl, hfind]
  simp [Node.is_tombstone, htomb]

/-- C2 witness: the tombstone-preservation part applied to the concrete
post-delete replica of the race scenario. -/
theorem c2_delete_wins_no_resurrection_witness :
    (find_by_s4vector (duS0.delete_local 0).2.nodes ⟨1, 0, 1, 1⟩ =
      some ⟨none, ⟨1, 0, 1, 1⟩, ⟨1, 0, 2, 2⟩⟩) ∧
    ((⟨none, ⟨1, 0, 1, 1⟩, ⟨1, 0, 2, 2⟩⟩ : Node Nat).obj = none) ∧
    (((duS0.delete_local 0).2.apply_remote
        (.update ⟨1, 0, 1, 1⟩ 120 ⟨1, 1, 9, 9⟩ [1, 1])).nodes =
      (duS0.delete_local 0).2.nodes) :=
  ⟨by decide, rfl,
    (c2_delete_wins_no_resurrection (duS0.delete_local 0).2 ⟨1, 0, 1, 1⟩ 120
      ⟨1, 1, 9, 9⟩ [1, 1] ⟨none, ⟨1, 0, 1, 1⟩, ⟨1, 0, 2, 2⟩⟩ (by decide) rfl).1⟩

/-! ## C4: insert_local never fails -/

/-- C4 counterexample: on an empty replica (visible length 0) an insert at
visible index 5 does not fail: it returns a broadcastable operation and
changes the state, refuting the claim that insert_local fails exactly when
the index exceeds the visible length and leaves the state unchanged. -/
theorem c4_out_of_range_insert_succeeds :
    (Rga.new Nat 0 1).read = [] ∧
    ((Rga.new Nat 0 1).insert_local 5 7).1.isSome = true ∧
    ((Rga.new Nat 0 1).insert_local 5 7).2.read = [7] := by
  decide

/-- remote_insert never touches the vector clock. -/
theorem Rga.remote_insert_vector_clock {T : Type} (r : Rga T) (l : Option S4Vector)
    (v : T) (s : S4Vector) : (r.remote_insert l v s).vector_clock = r.vector_clock := by
  unfold Rga.remote_insert
  rcases l with _ | l
  · cases r.nodes with
    | nil => rfl
    | cons h t => dsimp only; split <;> rfl
  · dsimp only
    rcases h : splitAtKey r.nodes l with _ | ⟨pre, ln, suf⟩ <;> rfl

/-- C4 (amended): insert_local never fails: for every replica state, index and
value it returns a broadcastable Insert carrying the freshly generated
S4Vector; when the index is nonzero and no visible node exists at index - 1
the Insert carries no left predecessor (a head insert). -/
theorem c4_insert_local_total (r : Rga Nat) (index : Nat) (v : Nat) :
    (r.insert_local index v).1.isSome = true ∧
    (index ≠ 0 → find_by_index r.nodes (index - 1) = none →
      (r.insert_local index v).1 =
        some (.insert none v r.generate_s4vector.1 r.generate_s4vector.2.vector_clock)) := by
  constructor
  · simp [Rga.insert_local]
  · intro hnz hfind
    have hvc := Rga.remote_insert_vector_clock r.generate_s4vector.2
      (if index = 0 then none
        else (find_by_index r.generate_s4vector.2.nodes (index - 1)).map (fun x => x.2.1.s_k))
      v r.generate_s4vector.1
    simp only [Rga.insert_local, hvc]
    have hn : r.generate_s4vector.2.nodes = r.nodes := rfl
    simp [hnz, hn, hfind]

/-- C4 witness: the totality theorem applied to an out-of-range insert on the
empty replica. -/
theorem c4_insert_local_total_witness :
    ((Rga.new Nat 0 1).insert_local 5 7).1.isSome = true ∧
    ((5 : Nat) ≠ 0) ∧
    (find_by_index (Rga.new Nat 0 1).nodes (5 - 1) = none) ∧
    ((Rga.new Nat 0 1).insert_local 5 7).1 =
      some (.insert none 7 (Rga.new Nat 0 1).generate_s4vector.1
        (Rga.new Nat 0 1).generate_s4vector.2.vector_clock) := by
  refine ⟨(c4_insert_local_total (Rga.new Nat 0 1) 5 7).1, by decide, by decide, ?_⟩
  exact (c4_insert_local_total (Rga.new Nat 0 1) 5 7).2 (by decide) (by decide)

/-! ## C5: k_id immutability and p_id advancement -/

/-- Replica reaching a state whose single node carries a precedence id with a
large sum, obtained by applying a remote Update. -/
def c5r2 : Rga Nat :=
  ((Rga.new Nat 0 1).insert_local 0 5).2.apply_remote
    (.update ⟨1, 0, 1, 1⟩ 9 ⟨1, 0, 1000, 7⟩ [0])

/-- C5 counterexample: a remote Delete overwrites p_id with an id that
strictly precedes the stored one, and update_local does the same; so p_id
does not only advance under the precedence order. -/
theorem c5_p_id_can_go_backwards :
    c5r2.nodes.map Node.s_p = [⟨1, 0, 1000, 7⟩] ∧
    (c5r2.apply_remote (.delete ⟨1, 0, 1, 1⟩ ⟨1, 0, 1, 1⟩ [0])).nodes.map Node.s_p
      = [⟨1, 0, 1, 1⟩] ∧
    S4Vector.precedes ⟨1, 0, 1, 1⟩ ⟨1, 0, 1000, 7⟩ = true ∧
    (c5r2.update_local 0 99).2.nodes.map Node.s_p = [⟨1, 0, 2, 2⟩] ∧
    S4Vector.precedes ⟨1, 0, 2, 2⟩ ⟨1, 0, 1000, 7⟩ = true := by
  decide

/-- The per-node guarantee of remote Update: key unchanged, precedence id
unchanged or strictly advanced. -/
def PidAdvances {T : Type} (a b : Node T) : Prop :=
  b.s_k = a.s_k ∧ (b.s_p = a.s_p ∨ a.s_p.precedes b.s_p = true)

theorem pidAdvances_refl {T : Type} (a : Node T) : PidAdvances a a :=
  ⟨rfl, Or.inl rfl⟩

theorem forall₂_applyAtKey_update {T : Type} (t : S4Vector) (v : T) (s : S4Vector) :
    ∀ (nodes : List (Node T)) (n : Node T),
      find_by_s4vector nodes t = some n → n.s_p.precedes s = true →
      List.Forall₂ PidAdvances nodes
        (applyAtKey t (fun m => { m with obj := some v, s_p := s }) nodes)
  | [], n => by intro h; simp [find_by_s4vector] at h
  | m :: ns, n => by
    intro hfind hprec
    unfold find_by_s4vector at hfind
    unfold applyAtKey
    by_cases hk : m.s_k = t
    · rw [if_pos hk] at hfind ⊢
      injection hfind with hmn
      subst hmn
      exact List.Forall₂.cons ⟨rfl, Or.inr hprec⟩
        (List.forall₂_same.2 (fun x _ => pidAdvances_refl x))
    · rw [if_neg hk] at hfind ⊢
      exact List.Forall₂.cons (pidAdvances_refl m)
        (forall₂_applyAtKey_update t v s ns n hfind hprec)

theorem remote_update_forall₂ {T : Type} (r : Rga T) (t : S4Vector) (v : T)
    (s : S4Vector) : List.Forall₂ PidAdvances r.nodes (r.remote_update t v s).nodes := by
  unfold Rga.remote_update
  rcases hfind : find_by_s4vector r.nodes t with _ | n
  · exact List.forall₂_same.2 (fun x _ => pidAdvances_refl x)
  · dsimp only
    by_cases ht : n.is_tombstone
    · simp only [ht, if_pos]
      exact List.forall₂_same.2 (fun x _ => pidAdvances_refl x)
    · simp only [ht, Bool.false_eq_true, if_neg, if_false]
      by_cases hp : n.s_p.precedes s = true
      · simp only [hp, if_pos]
        exact forall₂_applyAtKey_update t v s r.nodes n hfind hp
      · simp only [hp, if_neg, if_false]
        exact List.forall₂_same.2 (fun x _ => pidAdvances_refl x)

theorem applyAtKey_map_s_k {T : Type} (k : S4Vector) (f : Node T → Node T)
    (hf : ∀ m, (f m).s_k = m.s_k) :
    ∀ nodes : List (Node T), (applyAtKey k f nodes).map Node.s_k = nodes.map Node.s_k
  | [] => rfl
  | n :: ns => by
    unfold applyAtKey
    by_cases hk : n.s_k = k
    · simp [hk, hf]
    · simp [hk, applyAtKey_map_s_k k f hf ns]

theorem remote_delete_map_s_k {T : Type} (r : Rga T) (t s : S4Vector) :
    (r.remote_delete t s).nodes.map Node.s_k = r.nodes.map Node.s_k := by
  unfold Rga.remote_delete
  rcases h : find_by_s4vector r.nodes t with _ | n
  · rfl
  · dsimp only
    exact applyAtKey_map_s_k t (fun m => { m with obj := none, s_p := s }) (fun _ => rfl) r.nodes

theorem splitAtKey_eq {T : Type} (k : S4Vector) :
    ∀ (l pre suf : List (Node T)) (n : Node T),
      splitAtKey l k = some (pre, n, suf) → l = pre ++ n :: suf
  | [], pre, suf, n => by intro h; simp [splitAtKey] at h
  | m :: ms, pre, suf, n => by
    intro h
    unfold splitAtKey at h
    by_cases hk : m.s_k = k
    · simp only [hk, if_pos rfl, Option.some.injEq, Prod.mk.injEq] at h
      obtain ⟨rfl, rfl, rfl⟩ := h
      rfl
    · simp only [if_neg hk, Option.map_eq_some', Prod.mk.injEq] at h
      obtain ⟨⟨p, nn, sf⟩, hrec, rfl, rfl, rfl⟩ := h
      simpa using congrArg (m :: ·) (splitAtKey_eq k ms p sf nn hrec)

theorem remote_insert_sublist {T : Type} (r : Rga T) (l : Option S4Vector) (v : T)
    (s : S4Vector) :
    List.Sublist (r.nodes.map Node.s_k) ((r.remote_insert l v s).nodes.map Node.s_k) := by
  unfold Rga.remote_insert
  rcases l with _ | l
  · dsimp only
    rcases hn : r.nodes with _ | ⟨h, t⟩
    · simp
    · by_cases hp : h.s_k.precedes s = true
      · simp only [hp, if_pos]
        exact (List.sublist_cons_self _ _).map Node.s_k
      · simp only [hp, if_neg, if_false]
        have hsub : List.Sublist (h :: t) (h :: (t.takeWhile (fun n => s.precedes n.s_k) ++
            ⟨some v, s, s⟩ :: t.dropWhile (fun n => s.precedes n.s_k))) := by
          have : List.Sublist (t.takeWhile (fun n => s.precedes n.s_k) ++
              t.dropWhile (fun n => s.precedes n.s_k))
              (t.takeWhile (fun n => s.precedes n.s_k) ++
                ⟨some v, s, s⟩ :: t.dropWhile (fun n => s.precedes n.s_k)) :=
            (List.sublist_cons_self _ _).append_left _
          simpa [List.takeWhile_append_dropWhile] using this.cons₂ h
        simpa using hsub.map Node.s_k
  · dsimp only
    rcases hs : splitAtKey r.nodes l with _ | ⟨pre, ln, suf⟩
    · simp
    · dsimp only
      have hdecomp := splitAtKey_eq l r.nodes pre suf ln hs
      have hsub : List.Sublist r.nodes (pre ++ ln ::
          (suf.takeWhile (fun n => s.precedes n.s_k) ++
            ⟨some v, s, s⟩ :: suf.dropWhile (fun n => s.precedes n.s_k))) := by
        rw [hdecomp]
        refine List.Sublist.append_left ?_ pre
        have : List.Sublist (suf.takeWhile (fun n => s.precedes n.s_k) ++
            suf.dropWhile (fun n => s.precedes n.s_k))
            (suf.takeWhile (fun n => s.precedes n.s_k) ++
              ⟨some v, s, s⟩ :: suf.dropWhile (fun n => s.precedes n.s_k)) :=
          (List.sublist_cons_self _ _).append_left _
        simpa [List.takeWhile_append_dropWhile] using this.cons₂ ln
      exact hsub.map Node.s_k

theorem find_by_index_eq {T : Type} :
    ∀ (l : List (Node T)) (i : Nat) (pre suf : List (Node T)) (n : Node T),
      find_by_index l i = some (pre, n, suf) → l = pre ++ n :: suf
  | [], i, pre, suf, n => by intro h; simp [find_by_index] at h
  | m :: ms, i, pre, suf, n => by
    intro h
    unfold find_by_index at h
    by_cases hv : m.obj.isSome = true
    · simp only [hv, if_pos] at h
      by_cases hi : i = 0
      · simp only [hi, if_pos rfl, Option.some.injEq, Prod.mk.injEq] at h
        obtain ⟨rfl, rfl, rfl⟩ := h
        rfl
      · simp only [if_neg hi, Option.map_eq_some', Prod.mk.injEq] at h
        obtain ⟨⟨p, nn, sf⟩, hrec, rfl, rfl, rfl⟩ := h
        simpa using congrArg (m :: ·) (find_by_index_eq ms (i - 1) p sf nn hrec)
    · simp only [hv, Bool.false_eq_true, if_neg, if_false, Option.map_eq_some',
        Prod.mk.injEq] at h
      obtain ⟨⟨p, nn, sf⟩, hrec, rfl, rfl, rfl⟩ := h
      simpa using congrArg (m :: ·) (find_by_index_eq ms i p sf nn hrec)

theorem delete_local_map_s_k {T : Type} (r : Rga T) (i : Nat) :
    ((r.delete_local i).2).nodes.map Node.s_k = r.nodes.map Node.s_k := by
  unfold Rga.delete_local
  rcases hf : find_by_index r.nodes i with _ | ⟨pre, n, suf⟩
  · rfl
  · dsimp only
    rw [find_by_index_eq r.nodes i pre suf n hf]
    simp

theorem update_local_map_s_k {T : Type} (r : Rga T) (i : Nat) (v : T) :
    ((r.update_local i v).2).nodes.map Node.s_k = r.nodes.map Node.s_k := by
  unfold Rga.update_local
  rcases hf : find_by_index r.nodes i with _ | ⟨pre, n, suf⟩
  · rfl
  · dsimp only
    rw [find_by_index_eq r.nodes i pre suf n hf]
    simp

/-- Forall₂ PidAdvances implies equality of the key lists. -/
theorem forall₂_pidAdvances_map_s_k {T : Type} :
    ∀ {l₁ l₂ : List (Node T)}, List.Forall₂ PidAdvances l₁ l₂ →
      l₂.map Node.s_k = l₁.map Node.s_k
  | _, _, List.Forall₂.nil => rfl
  | _, _, List.Forall₂.cons h hs => by
    simp [h.1, forall₂_pidAdvances_map_s_k hs]

/-- C5 (amended): k_id is immutable: every operation, local or remote, leaves
the keys of the existing nodes in place (inserts only splice one new node
in).  Remote Update moves each p_id only forward under the precedence order.
Delete operations and update_local overwrite the p_id of their target with
the supplied id unconditionally (see the counterexample for a strict
decrease). -/
theorem c5_key_immutable_pid_advance_under_update :
    (∀ (r : Rga Nat) (t : S4Vector) (v : Nat) (s : S4Vector),
      List.Forall₂ PidAdvances r.nodes (r.remote_update t v s).nodes) ∧
    (∀ (r : Rga Nat) (t s : S4Vector),
      (r.remote_delete t s).nodes.map Node.s_k = r.nodes.map Node.s_k) ∧
    (∀ (r : Rga Nat) (l : Option S4Vector) (v : Nat) (s : S4Vector),
      List.Sublist (r.nodes.map Node.s_k) ((r.remote_insert l v s).nodes.map Node.s_k)) ∧
    (∀ (r : Rga Nat) (op : RemoteOp Nat),
      List.Sublist (r.nodes.map Node.s_k) ((r.apply_remote op).nodes.map Node.s_k)) ∧
    (∀ (r : Rga Nat) (i : Nat) (v : Nat),
      List.Sublist (r.nodes.map Node.s_k) (((r.insert_local i v).2).nodes.map Node.s_k)) ∧
    (∀ (r : Rga Nat) (i : Nat),
      ((r.delete_local i).2).nodes.map Node.s_k = r.nodes.map Node.s_k) ∧
    (∀ (r : Rga Nat) (i : Nat) (v : Nat),
      ((r.update_local i v).2).nodes.map Node.s_k = r.nodes.map Node.s_k) := by
  refine ⟨fun r t v s => remote_update_forall₂ r t v s,
    fun r t s => remote_delete_map_s_k r t s,
    fun r l v s => remote_insert_sublist r l v s, ?_, ?_,
    fun r i => delete_local_map_s_k r i,
    fun r i v => update_local_map_s_k r i v⟩
  · intro r op
    rcases op with ⟨l, v, s, vc⟩ | ⟨t, s, vc⟩ | ⟨t, v, s, vc⟩
    · unfold Rga.apply_remote
      dsimp only [RemoteOp.vc]
      exact remote_insert_sublist { r with vector_clock := mergeVC r.vector_clock vc } l v s
    · unfold Rga.apply_remote
      dsimp only [RemoteOp.vc]
      rw [remote_delete_map_s_k]
    · unfold Rga.apply_remote
      dsimp only [RemoteOp.vc]
      rw [forall₂_pidAdvances_map_s_k (remote_update_forall₂ _ t v s)]
  · intro r i v
    unfold Rga.insert_local
    dsimp only
    exact remote_insert_sublist r.generate_s4vector.2
      (if i = 0 then none
        else (find_by_index r.generate_s4vector.2.nodes (i - 1)).map (fun x => x.2.1.s_k))
      v r.generate_s4vector.1

/-! ## C6: missing-target policy -/

theorem find_none_splitAtKey_none {T : Type} (k : S4Vector) :
    ∀ l : List (Node T), find_by_s4vector l k = none → splitAtKey l k = none
  | [] => by intro _; rfl
  | m :: ms => by
    intro h
    unfold find_by_s4vector at h
    unfold splitAtKey
    by_cases hk : m.s_k = k
    · rw [if_pos hk] at h; exact absurd h (by simp)
    · rw [if_neg hk] at h ⊢
      rw [find_none_splitAtKey_none k ms h]
      rfl

/-- C6: an Insert whose left cobject is unknown, and a Delete or Update whose
target is unknown, are dropped without touching the node list (no placeholder
nodes); in particular a bare Insert against the empty replica leaves the read
empty. -/
theorem c6_missing_target_dropped (r : Rga Nat) (l : S4Vector) (v : Nat)
    (s : S4Vector) (vc : List Nat) (t p : S4Vector)
    (hIns : find_by_s4vector r.nodes l = none)
    (hTgt : find_by_s4vector r.nodes t = none) :
    (r.apply_remote (.insert (some l) v s vc)).nodes = r.nodes ∧
    (r.apply_remote (.delete t p vc)).nodes = r.nodes ∧
    (r.apply_remote (.update t v p vc)).nodes = r.nodes ∧
    ((Rga.new Nat 0 1).apply_remote (.insert (some ⟨1, 0, 1, 1⟩) 5 ⟨1, 0, 2, 2⟩ [0])).read
      = [] := by
  refine ⟨?_, ?_, ?_, by decide⟩
  · unfold Rga.apply_remote
    dsimp only [RemoteOp.vc]
    unfold Rga.remote_insert
    dsimp only
    rw [show ({ r with vector_clock := mergeVC r.vector_clock vc } : Rga Nat).nodes
        = r.nodes from rfl, find_none_splitAtKey_none l r.nodes hIns]
  · unfold Rga.apply_remote
    dsimp only [RemoteOp.vc]
    unfold Rga.remote_delete
    rw [show ({ r with vector_clock := mergeVC r.vector_clock vc } : Rga Nat).nodes
        = r.nodes from rfl, hTgt]
  · unfold Rga.apply_remote
    dsimp only [RemoteOp.vc]
    unfold Rga.remote_update
    rw [show ({ r with vector_clock := mergeVC r.vector_clock vc } : Rga Nat).nodes
        = r.nodes from rfl, hTgt]

/-- C6 witness: the drop guarantees applied to the empty replica, where every
lookup misses. -/
theorem c6_missing_target_dropped_witness :
    (find_by_s4vector (Rga.new Nat 0 1).nodes ⟨1, 0, 1, 1⟩ = none) ∧
    (find_by_s4vector (Rga.new Nat 0 1).nodes ⟨1, 0, 9, 9⟩ = none) ∧
    (((Rga.new Nat 0 1).apply_remote
        (.insert (some ⟨1, 0, 1, 1⟩) 5 ⟨1, 0, 2, 2⟩ [0])).nodes
      = (Rga.new Nat 0 1).nodes) ∧
    (((Rga.new Nat 0 1).apply_remote
        (.delete ⟨1, 0, 9, 9⟩ ⟨1, 0, 2, 2⟩ [0])).nodes = (Rga.new Nat 0 1).nodes) ∧
    (((Rga.new Nat 0 1).apply_remote
        (.update ⟨1, 0, 9, 9⟩ 5 ⟨1, 0, 2, 2⟩ [0])).nodes = (Rga.new Nat 0 1).nodes) := by
  have h := c6_missing_target_dropped (Rga.new Nat 0 1) ⟨1, 0, 1, 1⟩ 5 ⟨1, 0, 2, 2⟩ [0]
    ⟨1, 0, 9, 9⟩ ⟨1, 0, 2, 2⟩ (by decide) (by decide)
  exact ⟨by decide, by decide, h.1, h.2.1, h.2.2.1⟩

/-! ## C9: per-site sum monotonicity -/

/-- One client-visible operation on a replica: the three local generators or
the reception of a remote operation. -/
inductive LocalStep (T : Type) where
  | ins (i : Nat) (v : T)
  | del (i : Nat)
  | upd (i : Nat) (v : T)
  | recv (op : RemoteOp T)

def stepR {T : Type} (r : Rga T) : LocalStep T → Rga T
  | .ins i v => (r.insert_local i v).2
  | .del i => (r.delete_local i).2
  | .upd i v => (r.update_local i v).2
  | .recv op => r.apply_remote op

/-- The sum field of the S4Vector generated by a step, when the step
generates one (local inserts always do, deletes and updates only when the
index resolves, receptions never do). -/
def stepGenSum {T : Type} (r : Rga T) : LocalStep T → Option Nat
  | .ins _ _ => some r.generate_s4vector.1.sum
  | .del i => (find_by_index r.nodes i).map (fun _ => r.generate_s4vector.1.sum)
  | .upd i _ => (find_by_index r.nodes i).map (fun _ => r.generate_s4vector.1.sum)
  | .recv _ => none

/-- The sums of the S4Vectors successively generated at this site along a
sequence of steps. -/
def genTrace {T : Type} : Rga T → List (LocalStep T) → List Nat
  | _, [] => []
  | r, s :: ss =>
    match stepGenSum r s with
    | some n => n :: genTrace (stepR r s) ss
    | none => genTrace (stepR r s) ss

def vcsum {T : Type} (r : Rga T) : Nat := r.vector_clock.sum

theorem sum_set_bump_ge : ∀ (l : List Nat) (i : Nat),
    l.sum ≤ (l.set i (l.getD i 0 + 1)).sum
  | [], _ => Nat.le_refl _
  | x :: xs, 0 => by simp
  | x :: xs, i + 1 => by
    show (x :: xs).sum ≤ (x :: xs.set i (xs.getD i 0 + 1)).sum
    simp only [List.sum_cons]
    exact Nat.add_le_add_left (sum_set_bump_ge xs i) x

theorem sum_set_bump_eq : ∀ (l : List Nat) (i : Nat), i < l.length →
    (l.set i (l.getD i 0 + 1)).sum = l.sum + 1
  | [], i, h => by simp at h
  | x :: xs, 0, _ => by
    show ((x + 1) :: xs).sum = (x :: xs).sum + 1
    simp only [List.sum_cons]
    omega
  | x :: xs, i + 1, h => by
    show (x :: xs.set i (xs.getD i 0 + 1)).sum = (x :: xs).sum + 1
    simp only [List.sum_cons]
    rw [sum_set_bump_eq xs i (by simpa using h)]
    omega

theorem mergeVC_sum_ge : ∀ (a b : List Nat), a.sum ≤ (mergeVC a b).sum
  | [], b => by simp [mergeVC]
  | x :: xs, [] => by simp [mergeVC]
  | x :: xs, y :: ys => by
    simp only [mergeVC, List.sum_cons]
    exact Nat.add_le_add (Nat.le_max_left x y) (mergeVC_sum_ge xs ys)

theorem mergeVC_length : ∀ (a b : List Nat), (mergeVC a b).length = a.length
  | [], b => by simp [mergeVC]
  | x :: xs, [] => by simp [mergeVC]
  | x :: xs, y :: ys => by simp [mergeVC, mergeVC_length xs ys]

/-- remote_insert only rewrites the node list. -/
theorem remote_insert_eq_set_nodes {T : Type} (r : Rga T) (l : Option S4Vector)
    (v : T) (s : S4Vector) : ∃ ns, r.remote_insert l v s = { r with nodes := ns } := by
  unfold Rga.remote_insert
  rcases l with _ | l
  · dsimp only
    rcases r.nodes with _ | ⟨h, t⟩
    · exact ⟨_, rfl⟩
    · dsimp only
      split
      · exact ⟨_, rfl⟩
      · exact ⟨_, rfl⟩
  · dsimp only
    rcases splitAtKey r.nodes l with _ | ⟨pre, ln, suf⟩
    · exact ⟨r.nodes, rfl⟩
    · exact ⟨_, rfl⟩

/-- remote_delete only rewrites the node list and the cemetery. -/
theorem remote_delete_eq_set_nodes {T : Type} (r : Rga T) (t s : S4Vector) :
    ∃ ns cm, r.remote_delete t s = { r with nodes := ns, cemetery := cm } := by
  unfold Rga.remote_delete
  rcases find_by_s4vector r.nodes t with _ | n
  · exact ⟨r.nodes, r.cemetery, rfl⟩
  · exact ⟨_, _, rfl⟩

/-- remote_update only rewrites the node list. -/
theorem remote_update_eq_set_nodes {T : Type} (r : Rga T) (t : S4Vector) (v : T)
    (s : S4Vector) : ∃ ns, r.remote_update t v s = { r with nodes := ns } := by
  unfold Rga.remote_update
  rcases find_by_s4vector r.nodes t with _ | n
  · exact ⟨r.nodes, rfl⟩
  · dsimp only
    split
    · exact ⟨r.nodes, rfl⟩
    · split
      · exact ⟨_, rfl⟩
      · exact ⟨r.nodes, rfl⟩

/-- Every step preserves the site id and the clock width and never decreases
the clock sum. -/
theorem stepR_invariants {T : Type} (r : Rga T) (s : LocalStep T) :
    (stepR r s).site_id = r.site_id ∧
    (stepR r s).vector_clock.length = r.vector_clock.length ∧
    vcsum r ≤ vcsum (stepR r s) := by
  rcases s with ⟨i, v⟩ | ⟨i⟩ | ⟨i, v⟩ | ⟨op⟩
  · show (r.insert_local i v).2.site_id = r.site_id ∧
      (r.insert_local i v).2.vector_clock.length = r.vector_clock.length ∧
      vcsum r ≤ vcsum (r.insert_local i v).2
    unfold Rga.insert_local
    dsimp only
    obtain ⟨ns, hns⟩ := remote_insert_eq_set_nodes r.generate_s4vector.2
      (if i = 0 then none
        else (find_by_index r.generate_s4vector.2.nodes (i - 1)).map (fun x => x.2.1.s_k))
      v r.generate_s4vector.1
    rw [hns]
    exact ⟨rfl, by simp [Rga.generate_s4vector],
      sum_set_bump_ge r.vector_clock r.site_id⟩
  · show (r.delete_local i).2.site_id = r.site_id ∧
      (r.delete_local i).2.vector_clock.length = r.vector_clock.length ∧
      vcsum r ≤ vcsum (r.delete_local i).2
    unfold Rga.delete_local
    rcases h : find_by_index r.nodes i with _ | ⟨pre, n, suf⟩
    · exact ⟨rfl, rfl, Nat.le_refl _⟩
    · dsimp only
      exact ⟨rfl, by simp [Rga.generate_s4vector],
        sum_set_bump_ge r.vector_clock r.site_id⟩
  · show (r.update_local i v).2.site_id = r.site_id ∧
      (r.update_local i v).2.vector_clock.length = r.vector_clock.length ∧
      vcsum r ≤ vcsum (r.update_local i v).2
    unfold Rga.update_local
    rcases h : find_by_index r.nodes i with _ | ⟨pre, n, suf⟩
    · exact ⟨rfl, rfl, Nat.le_refl _⟩
    · dsimp only
      exact ⟨rfl, by simp [Rga.generate_s4vector],
        sum_set_bump_ge r.vector_clock r.site_id⟩
  · show (r.apply_remote op).site_id = r.site_id ∧
      (r.apply_remote op).vector_clock.length = r.vector_clock.length ∧
      vcsum r ≤ vcsum (r.apply_remote op)
    rcases op with ⟨l, v, s, vc⟩ | ⟨t, s, vc⟩ | ⟨t, v, s, vc⟩
    · unfold Rga.apply_remote
      dsimp only [RemoteOp.vc]
      obtain ⟨ns, hns⟩ := remote_insert_eq_set_nodes
        { r with vector_clock := mergeVC r.vector_clock vc } l v s
      rw [hns]
      exact ⟨rfl, mergeVC_length _ _, mergeVC_sum_ge _ _⟩
    · unfold Rga.apply_remote
      dsimp only [RemoteOp.vc]
      obtain ⟨ns, cm, hns⟩ := remote_delete_eq_set_nodes
        { r with vector_clock := mergeVC r.vector_clock vc } t s
      rw [hns]
      exact ⟨rfl, mergeVC_length _ _, mergeVC_sum_ge _ _⟩
    · unfold Rga.apply_remote
      dsimp only [RemoteOp.vc]
      obtain ⟨ns, hns⟩ := remote_update_eq_set_nodes
        { r with vector_clock := mergeVC r.vector_clock vc } t v s
      rw [hns]
      exact ⟨rfl, mergeVC_length _ _, mergeVC_sum_ge _ _⟩

/-- When a step generates an S4Vector, its sum is the incremented clock sum
and the post-state clock sum equals it. -/
theorem stepGenSum_eq {T : Type} (r : Rga T) (s : LocalStep T) (n : Nat)
    (hsite : r.site_id < r.vector_clock.length)
    (h : stepGenSum r s = some n) :
    n = vcsum r + 1 ∧ vcsum (stepR r s) = vcsum r + 1 := by
  have hgen : r.generate_s4vector.1.sum = vcsum r + 1 :=
    sum_set_bump_eq r.vector_clock r.site_id hsite
  rcases s with ⟨i, v⟩ | ⟨i⟩ | ⟨i, v⟩ | ⟨op⟩
  · simp only [stepGenSum, Option.some.injEq] at h
    subst h
    refine ⟨hgen, ?_⟩
    show vcsum (r.insert_local i v).2 = vcsum r + 1
    unfold Rga.insert_local
    dsimp only
    obtain ⟨ns, hns⟩ := remote_insert_eq_set_nodes r.generate_s4vector.2
      (if i = 0 then none
        else (find_by_index r.generate_s4vector.2.nodes (i - 1)).map (fun x => x.2.1.s_k))
      v r.generate_s4vector.1
    rw [hns]
    exact hgen
  · simp only [stepGenSum, Option.map_eq_some'] at h
    obtain ⟨⟨pre, m, suf⟩, hfind, hn⟩ := h
    subst hn
    refine ⟨hgen, ?_⟩
    show vcsum (r.delete_local i).2 = vcsum r + 1
    unfold Rga.delete_local
    rw [hfind]
    exact hgen
  · simp only [stepGenSum, Option.map_eq_some'] at h
    obtain ⟨⟨pre, m, suf⟩, hfind, hn⟩ := h
    subst hn
    refine ⟨hgen, ?_⟩
    show vcsum (r.update_local i v).2 = vcsum r + 1
    unfold Rga.update_local
    rw [hfind]
    exact hgen
  · simp [stepGenSum] at h

/-- Core induction for C9: along any step sequence the generated sums form a
strictly increasing chain, all above the current clock sum. -/
theorem genTrace_chain {T : Type} :
    ∀ (ss : List (LocalStep T)) (r : Rga T),
      r.site_id < r.vector_clock.length →
      (genTrace r ss).Chain' (· < ·) ∧ ∀ x ∈ genTrace r ss, vcsum r < x
  | [], r, _ => ⟨List.chain'_nil, by simp [genTrace]⟩
  | s :: ss, r, hsite => by
    obtain ⟨hsid, hlen, hge⟩ := stepR_invariants r s
    have hsite2 : (stepR r s).site_id < (stepR r s).vector_clock.length := by
      rw [hsid, hlen]; exact hsite
    obtain ⟨ihchain, ihbound⟩ := genTrace_chain ss (stepR r s) hsite2
    rcases hg : stepGenSum r s with _ | n
    · refine ⟨?_, ?_⟩
      · simpa [genTrace, hg] using ihchain
      · intro x hx
        simp only [genTrace, hg] at hx
        exact Nat.lt_of_le_of_lt hge (ihbound x hx)
    · obtain ⟨hn, hpost⟩ := stepGenSum_eq r s n hsite hg
      refine ⟨?_, ?_⟩
      · simp only [genTrace, hg]
        rw [List.chain'_cons']
        refine ⟨?_, ihchain⟩
        intro y hy
        have hmem : y ∈ genTrace (stepR r s) ss := List.mem_of_mem_head? hy
        have := ihbound y hmem
        omega
      · intro x hx
        simp only [genTrace, hg, List.mem_cons] at hx
        rcases hx with rfl | hx
        · omega
        · have := ihbound x hx
          omega

/-- C9: for every replica whose site id indexes its clock and every sequence
of operations (local generators interleaved with remote receptions merging
clocks by element-wise max), the sums of the successively generated S4Vectors
are strictly increasing; and ids sharing ssn and sum are ordered by sid. -/
theorem c9_site_sums_strictly_increase (r : Rga Nat) (ss : List (LocalStep Nat))
    (hsite : r.site_id < r.vector_clock.length) :
    (genTrace r ss).Chain' (· < ·) ∧
    (∀ a b : S4Vector, a.ssn = b.ssn → a.sum = b.sum →
      (a.precedes b = true ↔ a.sid < b.sid)) := by
  refine ⟨(genTrace_chain ss r hsite).1, ?_⟩
  intro a b h1 h2
  rw [S4Vector.precedes_iff]
  omega

/-- C9 witness: the monotonicity theorem applied to a concrete run at site 0
mixing two inserts, a reception and a delete. -/
theorem c9_site_sums_strictly_increase_witness :
    ((Rga.new Nat 0 2).site_id < (Rga.new Nat 0 2).vector_clock.length) ∧
    ((genTrace (Rga.new Nat 0 2)
        [.ins 0 7, .recv (.update ⟨1, 1, 5, 5⟩ 9 ⟨1, 1, 5, 5⟩ [0, 5]), .ins 1 8,
          .del 0]).Chain' (· < ·) ∧
      (∀ a b : S4Vector, a.ssn = b.ssn → a.sum = b.sum →
        (a.precedes b = true ↔ a.sid < b.sid))) :=
  ⟨by decide, c9_site_sums_strictly_increase (Rga.new Nat 0 2)
    [.ins 0 7, .recv (.update ⟨1, 1, 5, 5⟩ 9 ⟨1, 1, 5, 5⟩ [0, 5]), .ins 1 8, .del 0]
    (by decide)⟩

/-! ## Secure channel record layer (crates/client/src/secure_channel.rs)

Frames are byte lists (entries < 256 wherever they originate from the
source).  REC_MAGIC = "BSRC" = [66, 83, 82, 67]; VERSION = 1;
REC_APPLICATION_DATA = 0x17 = 23; REC_HEADER_LEN = 19; AEAD_TAG_LEN = 16. -/

/-- Big-endian encoding of n into w bytes, truncating modulo 256 ^ w exactly
as the source casts (u32 length field, u64 sequence field) do. -/
def toBE : Nat → Nat → List Nat
  | 0, _ => []
  | w + 1, n => toBE w (n / 256) ++ [n % 256]

/-- Big-endian decoding of a byte list, as u16/u32/u64::from_be_bytes. -/
def fromBE : List Nat → Nat
  | [] => 0
  | b :: l => b * 256 ^ l.length + fromBE l

inductive ChanErr where
  | sendOverflow
  | tooShort
  | badMagic
  | badVersion
  | badType
  | seqMismatch
  | seqOverflow
  | lenMismatch
  | authFail
deriving DecidableEq

/-- Modelled from the spec: the AEAD is the external ChaCha20-Poly1305 crate,
out of repository scope.  It is idealized as encrypt-in-clear plus a 16-byte
authenticator over key, nonce, AAD and message; the Poly1305 authenticator is
abstracted by a byte checksum, which (like the real authenticator) changes
whenever a single byte of the authenticated data changes. -/
def aeadTag (key nonce aad msg : List Nat) : List Nat :=
  ((key ++ nonce ++ aad ++ msg).sum % 256) :: List.replicate 15 0

def aeadEncrypt (key nonce aad msg : List Nat) : List Nat :=
  msg ++ aeadTag key nonce aad msg

def aeadDecrypt (key nonce aad ct : List Nat) : Option (List Nat) :=
  let msg := ct.take (ct.length - 16)
  if ct.drop (ct.length - 16) = aeadTag key nonce aad msg then some msg else none

/-- The record header: magic, version, record type, seq (8 bytes BE),
plaintext length (4 bytes BE). -/
def recHeader (seq plen : Nat) : List Nat :=
  [66, 83, 82, 67] ++ toBE 2 1 ++ [23] ++ toBE 8 seq ++ toBE 4 plen

/-- The record nonce: 4 zero bytes then seq in 8 BE bytes. -/
def nonceOf (seq : Nat) : List Nat :=
  List.replicate 4 0 ++ toBE 8 seq

structure SecureWrite where
  key : List Nat
  send_seq : Nat
deriving DecidableEq

structure SecureRead where
  key : List Nat
  recv_seq : Nat
deriving DecidableEq

/-- SecureWrite::encrypt.  The checked_add on send_seq is the explicit range
test (send_seq is a u64 in the source). -/
def SecureWrite.encrypt (st : SecureWrite) (plaintext : List Nat) :
    Except ChanErr (List Nat × SecureWrite) :=
  if st.send_seq + 1 < 2 ^ 64 then
    let header := recHeader st.send_seq plaintext.length
    let ciphertext := aeadEncrypt st.key (nonceOf st.send_seq) header plaintext
    .ok (header ++ ciphertext, ⟨st.key, st.send_seq + 1⟩)
  else .error .sendOverflow

/-- SecureRead::decrypt.  The source mutates recv_seq through &mut self right
after the sequence check, before the frame-length check and the AEAD call;
the model returns the post-call state next to the result. -/
def SecureRead.decrypt (st : SecureRead) (frame : List Nat) :
    Except ChanErr (List Nat) × SecureRead :=
  if frame.length < 19 + 16 then (.error .tooShort, st)
  else if frame.take 4 ≠ [66, 83, 82, 67] then (.error .badMagic, st)
  else if fromBE ((frame.drop 4).take 2) ≠ 1 then (.error .badVersion, st)
  else if frame.getD 6 0 ≠ 23 then (.error .badType, st)
  else
    let seq := fromBE ((frame.drop 7).take 8)
    let plaintext_len := fromBE ((frame.drop 15).take 4)
    if seq ≠ st.recv_seq then (.error .seqMismatch, st)
    else if st.recv_seq + 1 < 2 ^ 64 then
      let st1 : SecureRead := ⟨st.key, st.recv_seq + 1⟩
      if frame.length ≠ 19 + plaintext_len + 16 then (.error .lenMismatch, st1)
      else
        match aeadDecrypt st.key (nonceOf seq) (frame.take 19) (frame.drop 19) with
        | some pt => (.ok pt, st1)
        | none => (.error .authFail, st1)
    else (.error .seqOverflow, st)

/-! ## C10: receiver step order -/

/-- A frame with a well-formed header, seq 0 and length field 5, but a body
too short for that length: the length check fails after the seq check. -/
def c10Frame : List Nat :=
  [66, 83, 82, 67, 0, 1, 23, 0, 0, 0, 0, 0, 0, 0, 0, 0, 0, 0, 5] ++ List.replicate 16 0

/-- C10 counterexample: on a frame whose seq matches recv_seq = 0 but whose
length validation fails, decrypt returns the length-mismatch error with
recv_seq already advanced to 1, refuting the claim that recv_seq is
incremented only after the length and AEAD checks succeed. -/
theorem c10_length_error_advances_recv_seq :
    SecureRead.decrypt ⟨[], 0⟩ c10Frame = (.error .lenMismatch, ⟨[], 1⟩) := rfl

/-- C10 (amended): the source increments recv_seq as soon as the sequence
check passes, before the frame-length validation and the AEAD call; so a
length-mismatch or authentication failure on a seq-matching frame leaves
recv_seq advanced by exactly one. -/
theorem c10_recv_seq_bumped_before_length_and_aead (st : SecureRead) (frame : List Nat)
    (h : (st.decrypt frame).1 = .error .lenMismatch ∨
      (st.decrypt frame).1 = .error .authFail) :
    (st.decrypt frame).2.recv_seq = st.recv_seq + 1 := by
  unfold SecureRead.decrypt at h ⊢
  dsimp only at h ⊢
  split_ifs at h ⊢ <;> try (split <;> rfl)
  all_goals simp_all

/-- C10 witness: the amended step-order theorem applied to the concrete
length-mismatch frame. -/
theorem c10_recv_seq_bumped_before_length_and_aead_witness :
    ((SecureRead.decrypt ⟨[], 0⟩ c10Frame).1 = .error .lenMismatch ∨
      (SecureRead.decrypt ⟨[], 0⟩ c10Frame).1 = .error .authFail) ∧
    (SecureRead.decrypt ⟨[], 0⟩ c10Frame).2.recv_seq = 0 + 1 :=
  ⟨Or.inl rfl, c10_recv_seq_bumped_before_length_and_aead ⟨[], 0⟩ c10Frame (Or.inl rfl)⟩

/-! ## Byte-codec lemmas -/

theorem toBE_length : ∀ (w n : Nat), (toBE w n).length = w
  | 0, _ => rfl
  | w + 1, n => by simp [toBE, toBE_length w]

theorem fromBE_append_singleton : ∀ (l : List Nat) (b : Nat),
    fromBE (l ++ [b]) = fromBE l * 256 + b
  | [], b => by simp [fromBE]
  | x :: xs, b => by
    show x * 256 ^ (xs ++ [b]).length + fromBE (xs ++ [b]) = fromBE (x :: xs) * 256 + b
    rw [List.length_append, fromBE_append_singleton xs b]
    show x * 256 ^ (xs.length + 1) + (fromBE xs * 256 + b)
      = (x * 256 ^ xs.length + fromBE xs) * 256 + b
    ring

theorem fromBE_toBE : ∀ (w n : Nat), fromBE (toBE w n) = n % 256 ^ w
  | 0, n => by simp [toBE, fromBE, Nat.mod_one]
  | w + 1, n => by
    show fromBE (toBE w (n / 256) ++ [n % 256]) = n % 256 ^ (w + 1)
    rw [fromBE_append_singleton, fromBE_toBE w]
    rw [show (256 : Nat) ^ (w + 1) = 256 * 256 ^ w by ring, Nat.mod_mul]
    ring

theorem toBE_entries_lt : ∀ (w n : Nat), ∀ x ∈ toBE w n, x < 256
  | 0, n => by simp [toBE]
  | w + 1, n => by
    intro x hx
    simp only [toBE, List.mem_append, List.mem_singleton] at hx
    rcases hx with hx | rfl
    · exact toBE_entries_lt w (n / 256) x hx
    · exact Nat.mod_lt _ (by omega)

theorem fromBE_set_ne : ∀ (l : List Nat) (j b : Nat), j < l.length →
    b ≠ l.getD j 0 → fromBE (l.set j b) ≠ fromBE l
  | [], j, b, hj, _ => by simp at hj
  | x :: xs, 0, b, _, hb => by
    show b * 256 ^ xs.length + fromBE xs ≠ x * 256 ^ xs.length + fromBE xs
    intro hc
    have : b * 256 ^ xs.length = x * 256 ^ xs.length := by omega
    exact hb (Nat.eq_of_mul_eq_mul_right (Nat.pos_pow_of_pos _ (by omega)) this)
  | x :: xs, j + 1, b, hj, hb => by
    show x * 256 ^ (xs.set j b).length + fromBE (xs.set j b)
      ≠ x * 256 ^ xs.length + fromBE xs
    rw [List.length_set]
    intro hc
    exact fromBE_set_ne xs j b (by simpa using hj) hb (by omega)

theorem sum_set_exchange : ∀ (l : List Nat) (j b : Nat), j < l.length →
    (l.set j b).sum + l.getD j 0 = l.sum + b
  | [], j, b, hj => by simp at hj
  | x :: xs, 0, b, _ => by
    show (b :: xs).sum + x = (x :: xs).sum + b
    simp only [List.sum_cons]
    omega
  | x :: xs, j + 1, b, hj => by
    show (x :: xs.set j b).sum + xs.getD j 0 = (x :: xs).sum + b
    simp only [List.sum_cons]
    have := sum_set_exchange xs j b (by simpa using hj)
    omega

theorem getD_set_self : ∀ (l : List Nat) (j b : Nat), j < l.length →
    (l.set j b).getD j 0 = b
  | [], j, b, hj => by simp at hj
  | x :: xs, 0, b, _ => rfl
  | x :: xs, j + 1, b, hj => by
    show (xs.set j b).getD j 0 = b
    exact getD_set_self xs j b (by simpa using hj)

theorem set_ne_of_ne : ∀ (l : List Nat) (j b : Nat), j < l.length →
    b ≠ l.getD j 0 → l.set j b ≠ l := by
  intro l j b hj hb hc
  exact hb (by rw [← hc, getD_set_self l j b hj])

theorem getD_mem {α : Type} (d : α) : ∀ (l : List α) (i : Nat), i < l.length → l.getD i d ∈ l
  | [], i, h => by simp at h
  | x :: xs, 0, _ => List.mem_cons_self x xs
  | x :: xs, i + 1, h =>
    List.mem_cons_of_mem x (getD_mem d xs i (by simpa using h))

/-! ## Frame machinery -/

/-- The frame emitted by encrypt at sequence number q for plaintext m. -/
def mkFrame (key : List Nat) (q : Nat) (m : List Nat) : List Nat :=
  recHeader q m.length ++ aeadEncrypt key (nonceOf q) (recHeader q m.length) m

theorem encrypt_eq_mkFrame (key m : List Nat) (s : Nat) (hs : s + 1 < 2 ^ 64) :
    SecureWrite.encrypt ⟨key, s⟩ m = .ok (mkFrame key s m, ⟨key, s + 1⟩) := by
  unfold SecureWrite.encrypt
  rw [if_pos hs]
  rfl

theorem aeadTag_length (key nonce aad msg : List Nat) : (aeadTag key nonce aad msg).length = 16 := by
  simp [aeadTag]

theorem aead_roundtrip (key nonce aad msg : List Nat) :
    aeadDecrypt key nonce aad (aeadEncrypt key nonce aad msg) = some msg := by
  unfold aeadDecrypt aeadEncrypt
  have hlen : (msg ++ aeadTag key nonce aad msg).length - 16 = msg.length := by
    simp [aeadTag_length]
  rw [hlen, List.take_left, List.drop_left, if_pos rfl]

theorem recHeader_norm (q p : Nat) :
    recHeader q p = [66, 83, 82, 67, 0, 1, 23] ++ (toBE 8 q ++ toBE 4 p) := rfl

theorem recHeader_length (q p : Nat) : (recHeader q p).length = 19 := by
  rw [recHeader_norm]
  simp [toBE_length]

theorem mkFrame_norm (key : List Nat) (q : Nat) (m : List Nat) :
    mkFrame key q m = [66, 83, 82, 67, 0, 1, 23] ++ (toBE 8 q ++ (toBE 4 m.length ++
      (m ++ aeadTag key (nonceOf q) (recHeader q m.length) m))) := by
  unfold mkFrame aeadEncrypt
  rw [recHeader_norm]
  simp [List.append_assoc]

theorem mkFrame_length (key : List Nat) (q : Nat) (m : List Nat) :
    (mkFrame key q m).length = 19 + m.length + 16 := by
  unfold mkFrame aeadEncrypt
  simp [recHeader_length, aeadTag_length]
  omega

theorem mkFrame_take4 (key : List Nat) (q : Nat) (m : List Nat) :
    (mkFrame key q m).take 4 = [66, 83, 82, 67] := by
  rw [mkFrame_norm]
  rfl

theorem mkFrame_ver (key : List Nat) (q : Nat) (m : List Nat) :
    ((mkFrame key q m).drop 4).take 2 = [0, 1] := by
  rw [mkFrame_norm]
  rfl

theorem mkFrame_type (key : List Nat) (q : Nat) (m : List Nat) :
    (mkFrame key q m).getD 6 0 = 23 := by
  rw [mkFrame_norm]
  rfl

theorem mkFrame_seq_slice (key : List Nat) (q : Nat) (m : List Nat) :
    ((mkFrame key q m).drop 7).take 8 = toBE 8 q := by
  rw [mkFrame_norm]
  show ((toBE 8 q ++ (toBE 4 m.length ++
      (m ++ aeadTag key (nonceOf q) (recHeader q m.length) m)))).take 8 = toBE 8 q
  exact List.take_left' (toBE_length 8 q)

theorem mkFrame_len_slice (key : List Nat) (q : Nat) (m : List Nat) :
    ((mkFrame key q m).drop 15).take 4 = toBE 4 m.length := by
  rw [mkFrame_norm]
  show ((toBE 8 q ++ (toBE 4 m.length ++
      (m ++ aeadTag key (nonceOf q) (recHeader q m.length) m))).drop 8).take 4
    = toBE 4 m.length
  rw [List.drop_left' (toBE_length 8 q)]
  exact List.take_left' (toBE_length 4 m.length)

theorem mkFrame_take19 (key : List Nat) (q : Nat) (m : List Nat) :
    (mkFrame key q m).take 19 = recHeader q m.length := by
  unfold mkFrame
  exact List.take_left' (recHeader_length q m.length)

theorem mkFrame_drop19 (key : List Nat) (q : Nat) (m : List Nat) :
    (mkFrame key q m).drop 19 = aeadEncrypt key (nonceOf q) (recHeader q m.length) m := by
  unfold mkFrame
  exact List.drop_left' (recHeader_length q m.length)

/-- Successful decryption of a well-formed frame with matching key and
sequence number: the exact inverse of encrypt, advancing recv_seq. -/
theorem decrypt_mkFrame (key m : List Nat) (q : Nat) (hq : q + 1 < 2 ^ 64)
    (hm : m.length < 2 ^ 32) :
    SecureRead.decrypt ⟨key, q⟩ (mkFrame key q m) = (.ok m, ⟨key, q + 1⟩) := by
  have hseq : fromBE (((mkFrame key q m).drop 7).take 8) = q := by
    rw [mkFrame_seq_slice, fromBE_toBE]
    exact Nat.mod_eq_of_lt (by omega)
  have hplen : fromBE (((mkFrame key q m).drop 15).take 4) = m.length := by
    rw [mkFrame_len_slice, fromBE_toBE]
    exact Nat.mod_eq_of_lt (by omega)
  unfold SecureRead.decrypt
  dsimp only
  rw [if_neg (by rw [mkFrame_length]; omega)]
  rw [if_neg (by rw [mkFrame_take4]; exact fun hc => hc rfl)]
  rw [if_neg (by rw [mkFrame_ver]; exact fun hc => hc rfl)]
  rw [if_neg (by rw [mkFrame_type]; exact fun hc => hc rfl)]
  rw [if_neg (show ¬ fromBE (((mkFrame key q m).drop 7).take 8) ≠ q
    from fun hc => hc hseq)]
  rw [if_pos hq]
  rw [if_neg (show ¬ (mkFrame key q m).length
      ≠ 19 + fromBE (((mkFrame key q m).drop 15).take 4) + 16 by
    rw [hplen, mkFrame_length]
    exact fun hc => hc rfl)]
  rw [hseq, mkFrame_take19, mkFrame_drop19, aead_roundtrip]

/-- A well-formed frame whose sequence number does not match recv_seq is
rejected with a sequence error, whatever keys are involved, leaving the
receiver state unchanged. -/
theorem decrypt_mkFrame_wrong_seq (key key2 m : List Nat) (q c : Nat)
    (hq : q < 2 ^ 64) (hne : q ≠ c) :
    SecureRead.decrypt ⟨key, c⟩ (mkFrame key2 q m) = (.error .seqMismatch, ⟨key, c⟩) := by
  have hseq : fromBE (((mkFrame key2 q m).drop 7).take 8) = q := by
    rw [mkFrame_seq_slice, fromBE_toBE]
    exact Nat.mod_eq_of_lt (by omega)
  unfold SecureRead.decrypt
  dsimp only
  rw [if_neg (by rw [mkFrame_length]; omega)]
  rw [if_neg (by rw [mkFrame_take4]; exact fun hc => hc rfl)]
  rw [if_neg (by rw [mkFrame_ver]; exact fun hc => hc rfl)]
  rw [if_neg (by rw [mkFrame_type]; exact fun hc => hc rfl)]
  rw [if_pos (show fromBE (((mkFrame key2 q m).drop 7).take 8) ≠ c by
    rw [hseq]; exact hne)]

/-! ## C8: strict in-order receive -/

/-- The frames produced by repeatedly calling encrypt, threading the writer
state. -/
def encryptAll (st : SecureWrite) : List (List Nat) → List (List Nat)
  | [] => []
  | m :: ms =>
    match st.encrypt m with
    | .ok (f, st') => f :: encryptAll st' ms
    | .error _ => []

/-- The results of presenting a list of frames to the receiver in order,
threading the reader state. -/
def runRead (st : SecureRead) : List (List Nat) → List (Except ChanErr (List Nat))
  | [] => []
  | f :: fs => (st.decrypt f).1 :: runRead (st.decrypt f).2 fs

theorem encryptAll_getD (key : List Nat) :
    ∀ (ms : List (List Nat)) (s i : Nat), s + ms.length < 2 ^ 64 → i < ms.length →
      (encryptAll ⟨key, s⟩ ms).getD i [] = mkFrame key (s + i) (ms.getD i [])
  | [], s, i, _, hi => by simp at hi
  | m :: ms, s, i, hs, hi => by
    unfold encryptAll
    rw [encrypt_eq_mkFrame key m s (by simp only [List.length_cons] at hs; omega)]
    dsimp only
    rcases i with _ | i
    · simp
    · show (encryptAll ⟨key, s + 1⟩ ms).getD i [] = mkFrame key (s + (i + 1)) (ms.getD i [])
      rw [encryptAll_getD key ms (s + 1) i
        (by simp only [List.length_cons] at hs; omega) (by simpa using hi)]
      rw [show s + 1 + i = s + (i + 1) by omega]

/-- Acceptance only at the expected sequence number: a successful decrypt
implies the seq field of the frame equals recv_seq. -/
theorem decrypt_ok_seq (st : SecureRead) (f pt : List Nat) (st' : SecureRead)
    (h : st.decrypt f = (.ok pt, st')) : fromBE ((f.drop 7).take 8) = st.recv_seq := by
  unfold SecureRead.decrypt at h
  dsimp only at h
  split_ifs at h <;> try simp_all

/-- Core induction for C8: against frames numbered from 0, a receiver at
recv_seq c accepts an identity prefix and rejects the first out-of-place
frame with a sequence error. -/
theorem runRead_first_mismatch (key : List Nat) (msgs : List (List Nat))
    (hk : msgs.length < 2 ^ 64) (hlen : ∀ m ∈ msgs, m.length < 2 ^ 32) :
    ∀ (j : Nat) (idxs : List Nat) (c : Nat),
      j < idxs.length →
      (∀ i, i < j → idxs.getD i 0 = c + i) →
      idxs.getD j 0 ≠ c + j →
      (∀ i, i ≤ j → idxs.getD i 0 < msgs.length) →
      (∀ i, i < j → (runRead ⟨key, c⟩ (idxs.map
          (fun idx => (encryptAll ⟨key, 0⟩ msgs).getD idx []))).getD i (.ok [])
        = .ok (msgs.getD (c + i) [])) ∧
      (runRead ⟨key, c⟩ (idxs.map
          (fun idx => (encryptAll ⟨key, 0⟩ msgs).getD idx []))).getD j (.ok [])
        = .error .seqMismatch
  | 0, idxs, c => by
    intro hjlen hpre hmis hbound
    rcases idxs with _ | ⟨i0, rest⟩
    · simp at hjlen
    · refine ⟨fun i hi => absurd hi (Nat.not_lt_zero i), ?_⟩
      have hb0 : i0 < msgs.length := hbound 0 (Nat.le_refl 0)
      have hf : (encryptAll ⟨key, 0⟩ msgs).getD i0 []
          = mkFrame key i0 (msgs.getD i0 []) := by
        have := encryptAll_getD key msgs 0 i0 (by omega) hb0
        simpa using this
      simp only [List.map_cons, runRead, hf]
      rw [decrypt_mkFrame_wrong_seq key key (msgs.getD i0 []) i0 c (by omega)
        (by simpa using hmis)]
      rfl
  | j + 1, idxs, c => by
    intro hjlen hpre hmis hbound
    rcases idxs with _ | ⟨i0, rest⟩
    · simp at hjlen
    · have hi0 : i0 = c := by simpa using hpre 0 (Nat.succ_pos j)
      subst hi0
      have hb0 : i0 < msgs.length := hbound 0 (Nat.zero_le _)
      have hf : (encryptAll ⟨key, 0⟩ msgs).getD i0 []
          = mkFrame key i0 (msgs.getD i0 []) := by
        have := encryptAll_getD key msgs 0 i0 (by omega) hb0
        simpa using this
      have hmem : msgs.getD i0 [] ∈ msgs := getD_mem [] msgs i0 hb0
      have hdec : SecureRead.decrypt ⟨key, i0⟩ (mkFrame key i0 (msgs.getD i0 []))
          = (.ok (msgs.getD i0 []), ⟨key, i0 + 1⟩) :=
        decrypt_mkFrame key (msgs.getD i0 []) i0 (by omega) (hlen _ hmem)
      obtain ⟨ihpre, ihmis⟩ := runRead_first_mismatch key msgs hk hlen j rest (i0 + 1)
        (by simpa using hjlen)
        (fun i hi => by
          have := hpre (i + 1) (by omega)
          simpa [Nat.add_assoc, Nat.add_comm 1 i] using this)
        (by
          have := hmis
          simpa [Nat.add_assoc, Nat.add_comm 1 j] using this)
        (fun i hi => by
          have := hbound (i + 1) (by omega)
          simpa using this)
      refine ⟨?_, ?_⟩
      · intro i hi
        rcases i with _ | i
        · simp only [List.map_cons, runRead, hf, hdec]
          simp
        · simp only [List.map_cons, runRead, hf, hdec, List.getD_cons_succ]
          rw [ihpre i (by omega)]
          rw [show i0 + 1 + i = i0 + (i + 1) by omega]
      · simp only [List.map_cons, runRead, hf, hdec, List.getD_cons_succ]
        exact ihmis

/-- C8: the receiver accepts a frame only when its seq field equals recv_seq;
for k frames produced by encrypt with seqs 0..k-1, any presentation order
whose first out-of-place position is j accepts the identity prefix and
rejects frame j with a sequence error; replaying frame 0 at recv_seq 1 is
rejected with a sequence error and no state change. -/
theorem c8_strict_in_order_receive (key : List Nat) (msgs : List (List Nat))
    (perm : List Nat) (j : Nat)
    (hk : msgs.length < 2 ^ 64) (hlen : ∀ m ∈ msgs, m.length < 2 ^ 32)
    (hj : j < perm.length)
    (hpre : ∀ i, i < j → perm.getD i 0 = i)
    (hmis : perm.getD j 0 ≠ j)
    (hbound : ∀ i, i ≤ j → perm.getD i 0 < msgs.length) :
    (∀ (st : SecureRead) (f pt : List Nat) (st' : SecureRead),
      SecureRead.decrypt st f = (.ok pt, st') →
        fromBE ((f.drop 7).take 8) = st.recv_seq) ∧
    (∀ i, i < j →
      (runRead ⟨key, 0⟩ (perm.map
          (fun idx => (encryptAll ⟨key, 0⟩ msgs).getD idx []))).getD i (.ok [])
        = .ok (msgs.getD i [])) ∧
    (runRead ⟨key, 0⟩ (perm.map
        (fun idx => (encryptAll ⟨key, 0⟩ msgs).getD idx []))).getD j (.ok [])
      = .error .seqMismatch ∧
    (0 < msgs.length →
      SecureRead.decrypt ⟨key, 1⟩ ((encryptAll ⟨key, 0⟩ msgs).getD 0 [])
        = (.error .seqMismatch, ⟨key, 1⟩)) := by
  obtain ⟨hpre2, hmis2⟩ := runRead_first_mismatch key msgs hk hlen j perm 0 hj
    (fun i hi => by simpa using hpre i hi)
    (by simpa using hmis)
    hbound
  refine ⟨fun st f pt st' h => decrypt_ok_seq st f pt st' h, ?_, hmis2, ?_⟩
  · intro i hi
    have := hpre2 i hi
    simpa using this
  · intro hpos
    have hf : (encryptAll ⟨key, 0⟩ msgs).getD 0 []
        = mkFrame key 0 (msgs.getD 0 []) := by
      have := encryptAll_getD key msgs 0 0 (by omega) hpos
      simpa using this
    rw [hf]
    exact decrypt_mkFrame_wrong_seq key key (msgs.getD 0 []) 0 1 (by omega) (by omega)

/-- C8 witness: two messages sent as frames 0 and 1, presented in the order
[1, 0]: the first frame already mismatches. -/
theorem c8_strict_in_order_receive_witness :
    (([[1], [2]] : List (List Nat)).length < 2 ^ 64) ∧
    (∀ m ∈ ([[1], [2]] : List (List Nat)), m.length < 2 ^ 32) ∧
    ((0 : Nat) < ([1, 0] : List Nat).length) ∧
    (([1, 0] : List Nat).getD 0 0 ≠ 0) ∧
    ((∀ (st : SecureRead) (f pt : List Nat) (st' : SecureRead),
      SecureRead.decrypt st f = (.ok pt, st') →
        fromBE ((f.drop 7).take 8) = st.recv_seq) ∧
    (∀ i, i < 0 →
      (runRead ⟨[], 0⟩ (([1, 0] : List Nat).map
          (fun idx => (encryptAll ⟨[], 0⟩ [[1], [2]]).getD idx []))).getD i (.ok [])
        = .ok (([[1], [2]] : List (List Nat)).getD i [])) ∧
    (runRead ⟨[], 0⟩ (([1, 0] : List Nat).map
        (fun idx => (encryptAll ⟨[], 0⟩ [[1], [2]]).getD idx []))).getD 0 (.ok [])
      = .error .seqMismatch ∧
    ((0 : Nat) < ([[1], [2]] : List (List Nat)).length →
      SecureRead.decrypt ⟨[], 1⟩ ((encryptAll ⟨[], 0⟩ [[1], [2]]).getD 0 [])
        = (.error .seqMismatch, ⟨[], 1⟩))) := by
  refine ⟨by norm_num, by decide, by decide, by decide, ?_⟩
  exact c8_strict_in_order_receive [] [[1], [2]] [1, 0] 0 (by norm_num) (by decide)
    (by decide) (fun i hi => absurd hi (Nat.not_lt_zero i)) (by decide)
    (fun i hi => by
      have : i = 0 := by omega
      subst this
      decide)

/-! ## C7: record round trip and tamper detection -/

theorem hdr_take4 (q p : Nat) (ct : List Nat) :
    (recHeader q p ++ ct).take 4 = [66, 83, 82, 67] := by
  rw [recHeader_norm, List.append_assoc]
  rfl

theorem hdr_ver (q p : Nat) (ct : List Nat) :
    ((recHeader q p ++ ct).drop 4).take 2 = [0, 1] := by
  rw [recHeader_norm, List.append_assoc]
  rfl

theorem hdr_type (q p : Nat) (ct : List Nat) :
    (recHeader q p ++ ct).getD 6 0 = 23 := by
  rw [recHeader_norm, List.append_assoc]
  rfl

theorem hdr_seq_slice (q p : Nat) (ct : List Nat) :
    ((recHeader q p ++ ct).drop 7).take 8 = toBE 8 q := by
  rw [recHeader_norm, List.append_assoc]
  show ((toBE 8 q ++ (toBE 4 p ++ ct))).take 8 = toBE 8 q
  exact List.take_left' (toBE_length 8 q)

theorem hdr_len_slice (q p : Nat) (ct : List Nat) :
    ((recHeader q p ++ ct).drop 15).take 4 = toBE 4 p := by
  rw [recHeader_norm, List.append_assoc]
  show ((toBE 8 q ++ (toBE 4 p ++ ct)).drop 8).take 4 = toBE 4 p
  rw [List.drop_left' (toBE_length 8 q)]
  exact List.take_left' (toBE_length 4 p)

theorem hdr_take19 (q p : Nat) (ct : List Nat) :
    (recHeader q p ++ ct).take 19 = recHeader q p :=
  List.take_left' (recHeader_length q p)

theorem hdr_drop19 (q p : Nat) (ct : List Nat) :
    (recHeader q p ++ ct).drop 19 = ct :=
  List.drop_left' (recHeader_length q p)

theorem decrypt_is_badMagic (st : SecureRead) (frame : List Nat)
    (h1 : ¬ frame.length < 19 + 16) (h2 : frame.take 4 ≠ [66, 83, 82, 67]) :
    st.decrypt frame = (.error .badMagic, st) := by
  unfold SecureRead.decrypt
  rw [if_neg h1, if_pos h2]

theorem decrypt_is_badVersion (st : SecureRead) (frame : List Nat)
    (h1 : ¬ frame.length < 19 + 16) (h2 : frame.take 4 = [66, 83, 82, 67])
    (h3 : fromBE ((frame.drop 4).take 2) ≠ 1) :
    st.decrypt frame = (.error .badVersion, st) := by
  unfold SecureRead.decrypt
  rw [if_neg h1, if_neg (fun hc => hc h2), if_pos h3]

theorem decrypt_is_badType (st : SecureRead) (frame : List Nat)
    (h1 : ¬ frame.length < 19 + 16) (h2 : frame.take 4 = [66, 83, 82, 67])
    (h3 : fromBE ((frame.drop 4).take 2) = 1) (h4 : frame.getD 6 0 ≠ 23) :
    st.decrypt frame = (.error .badType, st) := by
  unfold SecureRead.decrypt
  rw [if_neg h1, if_neg (fun hc => hc h2), if_neg (fun hc => hc h3), if_pos h4]

theorem decrypt_is_seqMismatch (st : SecureRead) (frame : List Nat)
    (h1 : ¬ frame.length < 19 + 16) (h2 : frame.take 4 = [66, 83, 82, 67])
    (h3 : fromBE ((frame.drop 4).take 2) = 1) (h4 : frame.getD 6 0 = 23)
    (h5 : fromBE ((frame.drop 7).take 8) ≠ st.recv_seq) :
    st.decrypt frame = (.error .seqMismatch, st) := by
  unfold SecureRead.decrypt
  rw [if_neg h1, if_neg (fun hc => hc h2), if_neg (fun hc => hc h3),
    if_neg (fun hc => hc h4)]
  dsimp only
  rw [if_pos h5]

theorem decrypt_is_lenMismatch (st : SecureRead) (frame : List Nat)
    (h1 : ¬ frame.length < 19 + 16) (h2 : frame.take 4 = [66, 83, 82, 67])
    (h3 : fromBE ((frame.drop 4).take 2) = 1) (h4 : frame.getD 6 0 = 23)
    (h5 : fromBE ((frame.drop 7).take 8) = st.recv_seq)
    (h6 : st.recv_seq + 1 < 2 ^ 64)
    (h7 : frame.length ≠ 19 + fromBE ((frame.drop 15).take 4) + 16) :
    st.decrypt frame = (.error .lenMismatch, ⟨st.key, st.recv_seq + 1⟩) := by
  unfold SecureRead.decrypt
  rw [if_neg h1, if_neg (fun hc => hc h2), if_neg (fun hc => hc h3),
    if_neg (fun hc => hc h4)]
  dsimp only
  rw [if_neg (fun hc => hc h5), if_pos h6, if_pos h7]

theorem decrypt_is_authFail (st : SecureRead) (frame : List Nat)
    (h1 : ¬ frame.length < 19 + 16) (h2 : frame.take 4 = [66, 83, 82, 67])
    (h3 : fromBE ((frame.drop 4).take 2) = 1) (h4 : frame.getD 6 0 = 23)
    (h5 : fromBE ((frame.drop 7).take 8) = st.recv_seq)
    (h6 : st.recv_seq + 1 < 2 ^ 64)
    (h7 : frame.length = 19 + fromBE ((frame.drop 15).take 4) + 16)
    (h8 : aeadDecrypt st.key (nonceOf st.recv_seq) (frame.take 19) (frame.drop 19)
      = none) :
    st.decrypt frame = (.error .authFail, ⟨st.key, st.recv_seq + 1⟩) := by
  unfold SecureRead.decrypt
  rw [if_neg h1, if_neg (fun hc => hc h2), if_neg (fun hc => hc h3),
    if_neg (fun hc => hc h4)]
  dsimp only
  rw [if_neg (fun hc => hc h5), if_pos h6, if_neg (fun hc => hc h7), h5, h8]

theorem aeadTag_ne_of_msg_set (key nonce aad m : List Nat) (j b : Nat)
    (hj : j < m.length) (hb : b < 256) (hold : m.getD j 0 < 256)
    (hne : b ≠ m.getD j 0) :
    aeadTag key nonce aad m ≠ aeadTag key nonce aad (m.set j b) := by
  intro hc
  have hhead : (key ++ nonce ++ aad ++ m).sum % 256
      = (key ++ nonce ++ aad ++ m.set j b).sum % 256 := by
    have := congrArg (fun l => l.getD 0 0) hc
    simpa [aeadTag] using this
  have hsum : (m.set j b).sum + m.getD j 0 = m.sum + b := sum_set_exchange m j b hj
  simp only [List.sum_append] at hhead
  omega

/-- Tamper detection: changing any single byte of a well-formed frame makes
decrypt fail. -/
theorem tamper_mkFrame (key m : List Nat) (s : Nat) (hs : s + 1 < 2 ^ 64)
    (hm : m.length < 2 ^ 32) (hbytes : ∀ x ∈ m, x < 256) (i b : Nat)
    (hi : i < (mkFrame key s m).length) (hb : b < 256)
    (hne : b ≠ (mkFrame key s m).getD i 0) :
    ((SecureRead.decrypt ⟨key, s⟩ ((mkFrame key s m).set i b)).1).isOk = false := by
  have hfr := mkFrame_norm key s m
  have hframe2 : mkFrame key s m
      = recHeader s m.length ++ (m ++ aeadTag key (nonceOf s) (recHeader s m.length) m) :=
    rfl
  have hLen := mkFrame_length key s m
  have hSetLen : ((mkFrame key s m).set i b).length = 19 + m.length + 16 := by
    rw [List.length_set, hLen]
  have hnotshort : ¬ ((mkFrame key s m).set i b).length < 19 + 16 := by
    rw [hSetLen]; omega
  by_cases hA : i < 7
  · have hshape : (mkFrame key s m).set i b
        = (([66, 83, 82, 67, 0, 1, 23] : List Nat).set i b) ++ (toBE 8 s ++
          (toBE 4 m.length ++ (m ++ aeadTag key (nonceOf s) (recHeader s m.length) m))) := by
      rw [hfr]
      exact List.set_append_left i b (by simpa using hA)
    rw [hfr] at hne
    rw [hshape] at hnotshort ⊢
    interval_cases i
    · simp only [List.cons_append, List.nil_append, List.getD_cons_zero] at hne
      rw [decrypt_is_badMagic _ _ hnotshort (by
        rw [show ((([66, 83, 82, 67, 0, 1, 23] : List Nat).set 0 b) ++ (toBE 8 s ++
          (toBE 4 m.length ++ (m ++ aeadTag key (nonceOf s) (recHeader s m.length) m)))).take 4
          = [b, 83, 82, 67] from rfl]
        simp [hne])]
      rfl
    · simp only [List.cons_append, List.nil_append, List.getD_cons_succ,
        List.getD_cons_zero] at hne
      rw [decrypt_is_badMagic _ _ hnotshort (by
        rw [show ((([66, 83, 82, 67, 0, 1, 23] : List Nat).set 1 b) ++ (toBE 8 s ++
          (toBE 4 m.length ++ (m ++ aeadTag key (nonceOf s) (recHeader s m.length) m)))).take 4
          = [66, b, 82, 67] from rfl]
        simp [hne])]
      rfl
    · simp only [List.cons_append, List.nil_append, List.getD_cons_succ,
        List.getD_cons_zero] at hne
      rw [decrypt_is_badMagic _ _ hnotshort (by
        rw [show ((([66, 83, 82, 67, 0, 1, 23] : List Nat).set 2 b) ++ (toBE 8 s ++
          (toBE 4 m.length ++ (m ++ aeadTag key (nonceOf s) (recHeader s m.length) m)))).take 4
          = [66, 83, b, 67] from rfl]
        simp [hne])]
      rfl
    · simp only [List.cons_append, List.nil_append, List.getD_cons_succ,
        List.getD_cons_zero] at hne
      rw [decrypt_is_badMagic _ _ hnotshort (by
        rw [show ((([66, 83, 82, 67, 0, 1, 23] : List Nat).set 3 b) ++ (toBE 8 s ++
          (toBE 4 m.length ++ (m ++ aeadTag key (nonceOf s) (recHeader s m.length) m)))).take 4
          = [66, 83, 82, b] from rfl]
        simp [hne])]
      rfl
    · simp only [List.cons_append, List.nil_append, List.getD_cons_succ,
        List.getD_cons_zero] at hne
      rw [decrypt_is_badVersion _ _ hnotshort rfl (by
        rw [show (((([66, 83, 82, 67, 0, 1, 23] : List Nat).set 4 b) ++ (toBE 8 s ++
          (toBE 4 m.length ++ (m ++ aeadTag key (nonceOf s) (recHeader s m.length) m)))).drop 4).take 2
          = [b, 1] from rfl]
        show fromBE [b, 1] ≠ 1
        simp [fromBE]
        omega)]
      rfl
    · simp only [List.cons_append, List.nil_append, List.getD_cons_succ,
        List.getD_cons_zero] at hne
      rw [decrypt_is_badVersion _ _ hnotshort rfl (by
        rw [show (((([66, 83, 82, 67, 0, 1, 23] : List Nat).set 5 b) ++ (toBE 8 s ++
          (toBE 4 m.length ++ (m ++ aeadTag key (nonceOf s) (recHeader s m.length) m)))).drop 4).take 2
          = [0, b] from rfl]
        show fromBE [0, b] ≠ 1
        simp [fromBE]
        omega)]
      rfl
    · simp only [List.cons_append, List.nil_append, List.getD_cons_succ,
        List.getD_cons_zero] at hne
      rw [decrypt_is_badType _ _ hnotshort rfl rfl (by
        show b ≠ 23
        exact hne)]
      rfl
  · by_cases hB : i < 15
    · -- seq field region: the decoded sequence number changes
      have hshape : (mkFrame key s m).set i b
          = ([66, 83, 82, 67, 0, 1, 23] : List Nat) ++ ((toBE 8 s).set (i - 7) b ++
            (toBE 4 m.length ++ (m ++ aeadTag key (nonceOf s) (recHeader s m.length) m))) := by
        rw [hfr, List.set_append_right _ _ (by simp only [List.length_cons, List.length_nil]; omega)]
        congr 1
        exact List.set_append_left _ _ (by simp only [List.length_cons, List.length_nil, toBE_length]; omega)
      have hne2 : b ≠ (toBE 8 s).getD (i - 7) 0 := by
        rw [hfr] at hne
        rwa [List.getD_append_right _ _ _ _ (by simp only [List.length_cons, List.length_nil]; omega),
          List.getD_append _ _ _ _ (by simp only [List.length_cons, List.length_nil, toBE_length]; omega)] at hne
      have hS8 : ((([66, 83, 82, 67, 0, 1, 23] : List Nat) ++ ((toBE 8 s).set (i - 7) b ++
            (toBE 4 m.length ++ (m ++ aeadTag key (nonceOf s) (recHeader s m.length) m)))).drop 7).take 8
          = (toBE 8 s).set (i - 7) b := by
        rw [show (([66, 83, 82, 67, 0, 1, 23] : List Nat) ++ ((toBE 8 s).set (i - 7) b ++
            (toBE 4 m.length ++ (m ++ aeadTag key (nonceOf s) (recHeader s m.length) m)))).drop 7
          = (toBE 8 s).set (i - 7) b ++
            (toBE 4 m.length ++ (m ++ aeadTag key (nonceOf s) (recHeader s m.length) m)) from rfl]
        exact List.take_left' (by rw [List.length_set, toBE_length])
      have hseqne : fromBE ((toBE 8 s).set (i - 7) b) ≠ s := by
        have h := fromBE_set_ne (toBE 8 s) (i - 7) b (by simp only [List.length_cons, List.length_nil, toBE_length]; omega) hne2
        rw [fromBE_toBE, Nat.mod_eq_of_lt (by omega)] at h
        exact h
      rw [hshape] at hnotshort ⊢
      rw [decrypt_is_seqMismatch _ _ hnotshort rfl rfl rfl (by rw [hS8]; exact hseqne)]
      rfl
    · by_cases hC : i < 19
      · -- length field region: the decoded plaintext length changes
        have hshape : (mkFrame key s m).set i b
            = ([66, 83, 82, 67, 0, 1, 23] : List Nat) ++ (toBE 8 s ++
              ((toBE 4 m.length).set (i - 15) b ++
                (m ++ aeadTag key (nonceOf s) (recHeader s m.length) m))) := by
          rw [hfr, List.set_append_right _ _ (by simp only [List.length_cons, List.length_nil]; omega)]
          congr 1
          rw [List.set_append_right _ _ (by simp only [List.length_cons, List.length_nil, toBE_length]; omega)]
          congr 1
          exact List.set_append_left _ _ (by simp only [List.length_cons, List.length_nil, toBE_length]; omega)
        have hne2 : b ≠ (toBE 4 m.length).getD (i - 15) 0 := by
          rw [hfr] at hne
          rwa [List.getD_append_right _ _ _ _ (by simp only [List.length_cons, List.length_nil]; omega),
            List.getD_append_right _ _ _ _ (by simp only [List.length_cons, List.length_nil, toBE_length]; omega),
            List.getD_append _ _ _ _ (by simp only [List.length_cons, List.length_nil, toBE_length]; omega)] at hne
        have hlenne : fromBE ((toBE 4 m.length).set (i - 15) b) ≠ m.length := by
          have h := fromBE_set_ne (toBE 4 m.length) (i - 15) b
            (by simp only [List.length_cons, List.length_nil, toBE_length]; omega) hne2
          rw [fromBE_toBE, Nat.mod_eq_of_lt (show m.length < 256 ^ 4 by omega)] at h
          exact h
        have hseqeq : ((([66, 83, 82, 67, 0, 1, 23] : List Nat) ++ (toBE 8 s ++
              ((toBE 4 m.length).set (i - 15) b ++
                (m ++ aeadTag key (nonceOf s) (recHeader s m.length) m)))).drop 7).take 8
            = toBE 8 s := by
          rw [show (([66, 83, 82, 67, 0, 1, 23] : List Nat) ++ (toBE 8 s ++
              ((toBE 4 m.length).set (i - 15) b ++
                (m ++ aeadTag key (nonceOf s) (recHeader s m.length) m)))).drop 7
            = toBE 8 s ++ ((toBE 4 m.length).set (i - 15) b ++
                (m ++ aeadTag key (nonceOf s) (recHeader s m.length) m)) from rfl]
          exact List.take_left' (toBE_length 8 s)
        have hlenslice : ((([66, 83, 82, 67, 0, 1, 23] : List Nat) ++ (toBE 8 s ++
              ((toBE 4 m.length).set (i - 15) b ++
                (m ++ aeadTag key (nonceOf s) (recHeader s m.length) m)))).drop 15).take 4
            = (toBE 4 m.length).set (i - 15) b := by
          rw [show (15 : Nat) = ([66, 83, 82, 67, 0, 1, 23] : List Nat).length + 8 from rfl,
            List.drop_append 8, List.drop_left' (toBE_length 8 s)]
          exact List.take_left' (by rw [List.length_set, toBE_length])
        have hsetlen2 : (((([66, 83, 82, 67, 0, 1, 23] : List Nat) ++ (toBE 8 s ++
              ((toBE 4 m.length).set (i - 15) b ++
                (m ++ aeadTag key (nonceOf s) (recHeader s m.length) m))))).length)
            = 19 + m.length + 16 := by
          rw [← hshape, List.length_set, hLen]
        rw [hshape] at hnotshort ⊢
        rw [decrypt_is_lenMismatch _ _ hnotshort rfl rfl rfl
          (by rw [hseqeq, fromBE_toBE, Nat.mod_eq_of_lt (show s < 256 ^ 8 by omega)]) hs
          (by rw [hlenslice, hsetlen2]; intro hc; exact hlenne (by omega))]
        rfl
      · -- ciphertext region: the authenticator check fails
        have h19 : (recHeader s m.length).length ≤ i := by rw [recHeader_length]; omega
        have hshape : (mkFrame key s m).set i b
            = recHeader s m.length ++
              ((m ++ aeadTag key (nonceOf s) (recHeader s m.length) m).set (i - 19) b) := by
          rw [hframe2, List.set_append_right _ _ h19]
          rw [recHeader_length]
        have hne2 : b ≠ (m ++ aeadTag key (nonceOf s) (recHeader s m.length) m).getD (i - 19) 0 := by
          rw [hframe2] at hne
          rwa [List.getD_append_right _ _ _ _ h19, recHeader_length] at hne
        have hib : i - 19 < m.length + 16 := by
          rw [hLen] at hi
          omega
        have hctlen : ((m ++ aeadTag key (nonceOf s) (recHeader s m.length) m).set (i - 19) b).length
            = m.length + 16 := by
          rw [List.length_set, List.length_append, aeadTag_length]
        have haead : aeadDecrypt key (nonceOf s) (recHeader s m.length)
            ((m ++ aeadTag key (nonceOf s) (recHeader s m.length) m).set (i - 19) b) = none := by
          unfold aeadDecrypt
          rw [hctlen]
          rw [show m.length + 16 - 16 = m.length from by omega]
          by_cases hD : i - 19 < m.length
          · rw [List.set_append_left _ _ hD]
            rw [List.take_left' (by rw [List.length_set]),
              List.drop_left' (by rw [List.length_set])]
            rw [if_neg ?_]
            have hold : m.getD (i - 19) 0 < 256 := hbytes _ (getD_mem 0 m (i - 19) hD)
            have hne3 : b ≠ m.getD (i - 19) 0 := by
              rwa [List.getD_append _ _ _ _ hD] at hne2
            exact fun hc =>
              aeadTag_ne_of_msg_set key (nonceOf s) (recHeader s m.length) m (i - 19) b
                hD hb hold hne3 hc
          · rw [List.set_append_right _ _ (by omega)]
            rw [List.take_left, List.drop_left]
            rw [if_neg ?_]
            have hne3 : b ≠ (aeadTag key (nonceOf s) (recHeader s m.length) m).getD
                (i - 19 - m.length) 0 := by
              rwa [List.getD_append_right _ _ _ _ (by omega)] at hne2
            intro hc
            exact set_ne_of_ne (aeadTag key (nonceOf s) (recHeader s m.length) m)
              (i - 19 - m.length) b (by rw [aeadTag_length]; omega) hne3 hc
        rw [hshape] at hnotshort ⊢
        rw [decrypt_is_authFail _ _ hnotshort (hdr_take4 _ _ _)
          (by rw [hdr_ver]; rfl) (hdr_type _ _ _)
          (by rw [hdr_seq_slice, fromBE_toBE, Nat.mod_eq_of_lt (show s < 256 ^ 8 by omega)])
          hs
          (by rw [hdr_len_slice, fromBE_toBE, Nat.mod_eq_of_lt (show m.length < 256 ^ 4 by omega), ← hshape,
            List.length_set, hLen])
          (by rw [hdr_take19, hdr_drop19]; exact haead)]
        rfl

/-- C7 counterexample: a message of 2 ^ 32 bytes round-trips to a length
mismatch, because encrypt truncates the length field to 32 bits (the
`as u32` cast of the source); so the round trip does not hold for every
byte string. -/
theorem c7_large_message_breaks_round_trip :
    SecureWrite.encrypt ⟨[], 0⟩ (List.replicate (2 ^ 32) 0)
      = .ok (mkFrame [] 0 (List.replicate (2 ^ 32) 0), ⟨[], 1⟩) ∧
    (SecureRead.decrypt ⟨[], 0⟩ (mkFrame [] 0 (List.replicate (2 ^ 32) 0))).1
      = .error .lenMismatch := by
  refine ⟨encrypt_eq_mkFrame [] (List.replicate (2 ^ 32) 0) 0 (by norm_num), ?_⟩
  rw [decrypt_is_lenMismatch _ _
    (by rw [mkFrame_length, List.length_replicate]; omega)
    (mkFrame_take4 _ _ _)
    (by rw [mkFrame_ver]; rfl)
    (mkFrame_type _ _ _)
    (by rw [mkFrame_seq_slice, fromBE_toBE]; rfl)
    (by norm_num)
    (by
      rw [mkFrame_len_slice, List.length_replicate, fromBE_toBE, mkFrame_length,
        List.length_replicate]
      omega)]

/-- C7 (amended): for every key, sequence number in range, and byte string m
shorter than 2 ^ 32, decrypting the frame produced by encrypt with the same
key and the same sequence number returns exactly m; and altering any single
byte of that frame to a different byte value makes decrypt fail. -/
theorem c7_record_round_trip_and_tamper (key m : List Nat) (s : Nat)
    (hs : s + 1 < 2 ^ 64) (hm : m.length < 2 ^ 32) (hbytes : ∀ x ∈ m, x < 256)
    (frame : List Nat) (st' : SecureWrite)
    (henc : SecureWrite.encrypt ⟨key, s⟩ m = .ok (frame, st')) :
    (SecureRead.decrypt ⟨key, s⟩ frame).1 = .ok m ∧
    (∀ i b, i < frame.length → b < 256 → b ≠ frame.getD i 0 →
      ((SecureRead.decrypt ⟨key, s⟩ (frame.set i b)).1).isOk = false) := by
  have hf : frame = mkFrame key s m := by
    rw [encrypt_eq_mkFrame key m s hs] at henc
    injection henc with h
    exact (congrArg Prod.fst h).symm
  subst hf
  exact ⟨by rw [decrypt_mkFrame key m s hs hm],
    fun i b hi hb hne => tamper_mkFrame key m s hs hm hbytes i b hi hb hne⟩

/-- The concrete frame encrypt emits for message [1, 2, 3] at sequence 0
under the empty key. -/
def c7Frame : List Nat :=
  [66, 83, 82, 67, 0, 1, 23, 0, 0, 0, 0, 0, 0, 0, 0, 0, 0, 0, 3, 1, 2, 3,
    75, 0, 0, 0, 0, 0, 0, 0, 0, 0, 0, 0, 0, 0, 0, 0]

/-- C7 witness: the round-trip and tamper theorem applied to the concrete
message [1, 2, 3] at sequence 0. -/
theorem c7_record_round_trip_and_tamper_witness :
    ((0 : Nat) + 1 < 2 ^ 64) ∧
    (([1, 2, 3] : List Nat).length < 2 ^ 32) ∧
    (∀ x ∈ ([1, 2, 3] : List Nat), x < 256) ∧
    (SecureWrite.encrypt ⟨[], 0⟩ [1, 2, 3] = .ok (c7Frame, ⟨[], 1⟩)) ∧
    ((SecureRead.decrypt ⟨[], 0⟩ c7Frame).1 = .ok [1, 2, 3] ∧
      (∀ i b, i < c7Frame.length → b < 256 → b ≠ c7Frame.getD i 0 →
        ((SecureRead.decrypt ⟨[], 0⟩ (c7Frame.set i b)).1).isOk = false)) :=
  ⟨by norm_num, by norm_num, by decide, rfl,
    c7_record_round_trip_and_tamper [] [1, 2, 3] 0 (by norm_num) (by norm_num)
      (by decide) c7Frame ⟨[], 1⟩ rfl⟩
